import Mathlib

/-!
VT-2B Black: the per-sample DSP chain of `PluginProcessor.cpp`

A shallow embedding of `VT2BBlackProcessor` (saturation, harmonic generator,
transient shaper, makeup gain, the `processBlock` sample loop and
`prepareToPlay`).

Samples are elements of a linearly ordered field `α`; the C++ `float`
operations `+ - * /`, `std::abs`, `std::min` and the comparisons become the
field operations, so rounding, infinities and NaN are outside the model.  The
two `<cmath>` functions the code calls, `std::exp` and `std::pow`, are
arguments of the definitions that use them: the definitions stay executable
(for instance over `ℚ` with a rational approximation), and every theorem
below is stated for `α = ℝ` with `Real.exp` and `Real.rpow`.

An `AudioBuffer` is the list of its channels, each the list of its samples.
The sample loop reads and writes index `sample` of each channel only, so it is
modelled as a recursion over the frames (left sample, optional right sample)
of the buffer.  `processAllpass` is defined in the source but never called
(its call sites are commented out) and is not part of the model.
-/

namespace VT2B

/-! ## Constants (`namespace VT2BConstants`, PluginProcessor.cpp 21-49) -/

namespace VT2BConstants

def kSaturationCoeffMin {α : Type} [LinearOrderedField α] : α := 0.0

def kSaturationCoeffMax {α : Type} [LinearOrderedField α] : α := 3.0

def kSaturationCurve {α : Type} [LinearOrderedField α] : α := 2.5

def kHarmonic2ndAmount {α : Type} [LinearOrderedField α] : α := 0.40

def kHarmonic3rdAmount {α : Type} [LinearOrderedField α] : α := 0.25

def kTransientThreshold {α : Type} [LinearOrderedField α] : α := 0.2

def kTransientKnee {α : Type} [LinearOrderedField α] : α := 0.15

def kTransientAmountMin {α : Type} [LinearOrderedField α] : α := 0.08

def kTransientAmountMax {α : Type} [LinearOrderedField α] : α := 0.50

def kEnvelopeAttack {α : Type} [LinearOrderedField α] : α := 0.001

def kEnvelopeRelease {α : Type} [LinearOrderedField α] : α := 0.050

def kDriveMin {α : Type} [LinearOrderedField α] : α := 0.0

def kDriveMax {α : Type} [LinearOrderedField α] : α := 10.0

def kDriveDefault {α : Type} [LinearOrderedField α] : α := 0.0

def kMixMin {α : Type} [LinearOrderedField α] : α := 0.0

def kMixMax {α : Type} [LinearOrderedField α] : α := 100.0

def kMixDefault {α : Type} [LinearOrderedField α] : α := 100.0

end VT2BConstants

open VT2BConstants

/-! ## The memoryless stages -/

/-- Source function `VT2BBlackProcessor::processSaturation` (PluginProcessor.cpp 220-233):
`input / (1 + k * |input|^n)`; `pow` stands for `std::pow`. -/
def processSaturation {α : Type} [LinearOrderedField α] (pow : α → α → α)
    (input drive : α) : α :=
  let normalizedDrive := drive / kDriveMax
  let k := kSaturationCoeffMin +
    normalizedDrive * (kSaturationCoeffMax - kSaturationCoeffMin)
  let absInput := |input|
  let saturation := pow absInput kSaturationCurve
  input / (1 + k * saturation)

/-- Source function `VT2BBlackProcessor::processHarmonics` (PluginProcessor.cpp 235-251). -/
def processHarmonics {α : Type} [LinearOrderedField α] (input drive : α) : α :=
  let normalizedDrive := drive / kDriveMax
  let harmonic2 := input * input * kHarmonic2ndAmount * normalizedDrive
  let harmonic3 := input * input * input * kHarmonic3rdAmount * normalizedDrive
  let harmonic2 := if input ≥ 0 then harmonic2 else -harmonic2
  harmonic2 + harmonic3

/-- Source function `VT2BBlackProcessor::calculateMakeupGain` (PluginProcessor.cpp 305-311). -/
def calculateMakeupGain {α : Type} [LinearOrderedField α] (drive : α) : α :=
  let normalizedDrive := drive / kDriveMax
  1 / (1 + normalizedDrive * 0.8)

/-! ## The transient shaper (PluginProcessor.cpp 253-286) -/

/-- The local `attackCoeff` of `processTransient` (lines 258-259); `exp` stands
for `std::exp`, `sampleRate` for `float(currentSampleRate)`. -/
def attackCoeff {α : Type} [LinearOrderedField α] (exp : α → α) (sampleRate : α) : α :=
  1 - exp (-1 / (sampleRate * kEnvelopeAttack))

/-- The local `releaseCoeff` of `processTransient` (lines 260-262). -/
def releaseCoeff {α : Type} [LinearOrderedField α] (exp : α → α) (sampleRate : α) : α :=
  1 - exp (-1 / (sampleRate * kEnvelopeRelease))

/-- The envelope follower of `processTransient` (lines 256-267): the value the
reference parameter `envelope` holds after the update. -/
def envelopeFollower {α : Type} [LinearOrderedField α] (exp : α → α)
    (sampleRate input envelope : α) : α :=
  let absInput := |input|
  if absInput > envelope then
    envelope + attackCoeff exp sampleRate * (absInput - envelope)
  else
    envelope + releaseCoeff exp sampleRate * (absInput - envelope)

/-- The local `amount` of `processTransient` (lines 270-273). -/
def transientAmount {α : Type} [LinearOrderedField α] (drive : α) : α :=
  let normalizedDrive := drive / kDriveMax
  kTransientAmountMin + normalizedDrive * (kTransientAmountMax - kTransientAmountMin)

/-- The local `reduction` of `processTransient` (lines 276-283), computed from
the already updated envelope. -/
def transientReduction {α : Type} [LinearOrderedField α] (envelope drive : α) : α :=
  let amount := transientAmount drive
  let threshold : α := kTransientThreshold
  let knee : α := kTransientKnee
  if envelope > threshold then
    let excess := (envelope - threshold) / knee
    min 1 excess * amount
  else
    0

/-- Source function `VT2BBlackProcessor::processTransient` (PluginProcessor.cpp 253-286).
Returns the returned sample and the new value of the `float &envelope`. -/
def processTransient {α : Type} [LinearOrderedField α] (exp : α → α)
    (sampleRate input envelope drive : α) : α × α :=
  let envelope := envelopeFollower exp sampleRate input envelope
  let reduction := transientReduction envelope drive
  (input * (1 - reduction), envelope)

/-! ## Parameter smoothing -/

/-- Modelled from the spec: `juce::SmoothedValue<float>` (linear ramp) is JUCE
library code, not under src/.  The state is the current value, the target,
the per-sample step, the samples left of the ramp and the ramp length in
samples derived from the sample rate and the ramp time. -/
structure SmoothedValue (α : Type) where
  currentValue : α
  target : α
  step : α
  countdown : Nat
  stepsToTarget : Nat

namespace SmoothedValue

/-- Modelled from the spec: a default-constructed linear smoother rests at 0. -/
def init {α : Type} [LinearOrderedField α] : SmoothedValue α :=
  { currentValue := 0, target := 0, step := 0, countdown := 0, stepsToTarget := 0 }

/-- Modelled from the spec: `setCurrentAndTargetValue`, jump to a value and
stop ramping. -/
def setCurrentAndTargetValue {α : Type} (s : SmoothedValue α) (newValue : α) :
    SmoothedValue α :=
  { s with currentValue := newValue, target := newValue, countdown := 0 }

/-- Modelled from the spec: `reset (sampleRate, rampLengthInSeconds)` fixes the
ramp length `floor (rampLengthInSeconds * sampleRate)` and rests at the target. -/
def reset {α : Type} [LinearOrderedField α] [FloorRing α] (s : SmoothedValue α)
    (sampleRate rampLengthInSeconds : α) : SmoothedValue α :=
  setCurrentAndTargetValue
    { s with stepsToTarget := ⌊rampLengthInSeconds * sampleRate⌋₊ } s.target

/-- Modelled from the spec: `setTargetValue` records a new destination without
changing the current output; the ramp then takes `stepsToTarget` samples. -/
def setTargetValue {α : Type} [LinearOrderedField α] (s : SmoothedValue α)
    (newValue : α) : SmoothedValue α :=
  if newValue = s.target then s
  else if s.stepsToTarget = 0 then setCurrentAndTargetValue s newValue
  else
    { s with
      target := newValue
      countdown := s.stepsToTarget
      step := (newValue - s.currentValue) / (s.stepsToTarget : α) }

/-- Modelled from the spec: `getNextValue` advances one sample toward the
target (linear interpolation) and returns the new current value together with
the advanced smoother. -/
def getNextValue {α : Type} [LinearOrderedField α] (s : SmoothedValue α) :
    α × SmoothedValue α :=
  if s.countdown = 0 then (s.target, s)
  else if s.countdown - 1 = 0 then
    (s.target, { s with countdown := 0, currentValue := s.target })
  else
    (s.currentValue + s.step,
      { s with countdown := s.countdown - 1, currentValue := s.currentValue + s.step })

end SmoothedValue

/-! ## The processor -/

/-- The DSP members of `VT2BBlackProcessor` (PluginProcessor.h 73-85). -/
structure VT2BBlackProcessor (α : Type) where
  currentSampleRate : α
  envelopeL : α
  envelopeR : α
  allpassStateL : α
  allpassStateR : α
  smoothedDrive : SmoothedValue α
  smoothedMix : SmoothedValue α

namespace VT2BBlackProcessor

/-- The member initialisers of PluginProcessor.h 73-85: the state of a freshly
constructed processor. -/
def init {α : Type} [LinearOrderedField α] : VT2BBlackProcessor α :=
  { currentSampleRate := 44100.0
    envelopeL := 0.0
    envelopeR := 0.0
    allpassStateL := 0.0
    allpassStateR := 0.0
    smoothedDrive := SmoothedValue.init
    smoothedMix := SmoothedValue.init }

/-- Source function `VT2BBlackProcessor::prepareToPlay` (PluginProcessor.cpp 106-118). -/
def prepareToPlay {α : Type} [LinearOrderedField α] [FloorRing α]
    (p : VT2BBlackProcessor α) (sampleRate : α) (_samplesPerBlock : Nat) :
    VT2BBlackProcessor α :=
  { p with
    currentSampleRate := sampleRate
    smoothedDrive := p.smoothedDrive.reset sampleRate 0.02
    smoothedMix := p.smoothedMix.reset sampleRate 0.02
    envelopeL := 0.0
    envelopeR := 0.0
    allpassStateL := 0.0
    allpassStateR := 0.0 }

/-- The wet path of one channel inside the sample loop (PluginProcessor.cpp
174-190 for the left channel, 196-202 for the right one): pre-gain,
saturation, harmonics from the boosted dry sample, transient shaper, makeup
gain.  Returns the wet sample and the channel's new envelope. -/
def wetChannel {α : Type} [LinearOrderedField α] (exp : α → α) (pow : α → α → α)
    (sampleRate dry envelope currentDrive : α) : α × α :=
  let preDriveGain := 1.0 + (currentDrive / kDriveMax) * 1.5
  let wet := dry * preDriveGain
  let wet := processSaturation pow wet currentDrive
  let wet := wet + processHarmonics (dry * preDriveGain) currentDrive
  let r := processTransient exp sampleRate wet envelope currentDrive
  let wet := r.1
  let wet := wet * calculateMakeupGain currentDrive
  (wet, r.2)

/-- One iteration of the sample loop of `processBlock` (PluginProcessor.cpp
159-214).  `dryL` is `channelDataL[sample]`; `dryR` is `some channelDataR[sample]`
when `channelDataR` is not null and `none` when it is.  Returns the processor
after the iteration and the values stored to `channelDataL[sample]` and, when
`channelDataR` is not null, to `channelDataR[sample]`. -/
def processSample {α : Type} [LinearOrderedField α] (exp : α → α) (pow : α → α → α)
    (p : VT2BBlackProcessor α) (dryL : α) (dryR : Option α) :
    VT2BBlackProcessor α × α × Option α :=
  let d := p.smoothedDrive.getNextValue
  let m := p.smoothedMix.getNextValue
  let currentDrive := d.1
  let currentMix := m.1
  let p := { p with smoothedDrive := d.2, smoothedMix := m.2 }
  let l := wetChannel exp pow p.currentSampleRate dryL p.envelopeL currentDrive
  let wetL := l.1
  let p := { p with envelopeL := l.2 }
  let outL := dryL * (1.0 - currentMix) + wetL * currentMix
  match dryR with
  | some dryR =>
    let r := wetChannel exp pow p.currentSampleRate dryR p.envelopeR currentDrive
    let wetR := r.1
    let p := { p with envelopeR := r.2 }
    (p, outL, some (dryR * (1.0 - currentMix) + wetR * currentMix))
  | none => (p, outL, none)

/-- The `for (sample ...)` loop of `processBlock` over the frames of the buffer,
in order. -/
def sampleLoop {α : Type} [LinearOrderedField α] (exp : α → α) (pow : α → α → α) :
    VT2BBlackProcessor α → List (α × Option α) →
      VT2BBlackProcessor α × List (α × Option α)
  | p, [] => (p, [])
  | p, (dryL, dryR) :: rest =>
    let r := processSample exp pow p dryL dryR
    let rs := sampleLoop exp pow r.1 rest
    (rs.1, r.2 :: rs.2)

/-- The frames the sample loop reads: channel 0, paired with channel 1 when
there is more than one input channel (`channelDataR` not null). -/
def frames {α : Type} [LinearOrderedField α] (totalNumInputChannels : Nat)
    (buffer : List (List α)) : List (α × Option α) :=
  if totalNumInputChannels > 1 then
    List.zipWith (fun l r => (l, some r)) (buffer.getD 0 []) (buffer.getD 1 [])
  else
    (buffer.getD 0 []).map (fun l => (l, none))

/-- The loop of PluginProcessor.cpp 144-145: output channels without an input
are cleared. -/
def clearUnused {α : Type} [LinearOrderedField α]
    (totalNumInputChannels totalNumOutputChannels : Nat) (buffer : List (List α)) :
    List (List α) :=
  buffer.mapIdx (fun i ch =>
    if totalNumInputChannels ≤ i ∧ i < totalNumOutputChannels then ch.map (fun _ => 0)
    else ch)

/-- Source function `VT2BBlackProcessor::processBlock` (PluginProcessor.cpp 135-215).  The
buffer is the list of its channels, each `getNumSamples ()` long; `drive` and
`mix` are the raw parameter values read at lines 148-149.  Returns the
processor after the block and the buffer as written in place. -/
def processBlock {α : Type} [LinearOrderedField α] (exp : α → α) (pow : α → α → α)
    (p : VT2BBlackProcessor α) (totalNumInputChannels totalNumOutputChannels : Nat)
    (driveParameter mixParameter : α) (buffer : List (List α)) :
    VT2BBlackProcessor α × List (List α) :=
  let buffer := clearUnused totalNumInputChannels totalNumOutputChannels buffer
  let drive := driveParameter
  let mix := mixParameter / 100.0
  let p := { p with
    smoothedDrive := p.smoothedDrive.setTargetValue drive
    smoothedMix := p.smoothedMix.setTargetValue mix }
  let r := sampleLoop exp pow p (frames totalNumInputChannels buffer)
  let buffer := buffer.set 0 (r.2.map (fun o => o.1))
  let buffer :=
    if totalNumInputChannels > 1 then buffer.set 1 (r.2.filterMap (fun o => o.2))
    else buffer
  (r.1, buffer)

/-- One call of `processBlock` by the host: the bus layout, the raw parameter
values at that moment and the buffer handed over. -/
structure BlockCall (α : Type) where
  totalNumInputChannels : Nat
  totalNumOutputChannels : Nat
  driveParameter : α
  mixParameter : α
  buffer : List (List α)

/-- The call `processBlock` with the arguments of `c`. -/
def processCall {α : Type} [LinearOrderedField α] (exp : α → α) (pow : α → α → α)
    (p : VT2BBlackProcessor α) (c : BlockCall α) : VT2BBlackProcessor α × List (List α) :=
  processBlock exp pow p c.totalNumInputChannels c.totalNumOutputChannels
    c.driveParameter c.mixParameter c.buffer

/-- The processor after a sequence of `processBlock` calls, in order. -/
def runBlocks {α : Type} [LinearOrderedField α] (exp : α → α) (pow : α → α → α) :
    VT2BBlackProcessor α → List (BlockCall α) → VT2BBlackProcessor α
  | p, [] => p
  | p, c :: cs => runBlocks exp pow (processCall exp pow p c).1 cs

/-- A block of `numSamples` frames in which every input sample is `x`, mono
(one input, one output channel) or stereo (two of each), with the raw parameter
values `drive` and `mix`: the input of the end-to-end scenarios. -/
def constantCall {α : Type} (stereo : Bool) (drive mix x : α) (numSamples : Nat) :
    BlockCall α :=
  if stereo then
    { totalNumInputChannels := 2, totalNumOutputChannels := 2, driveParameter := drive,
      mixParameter := mix, buffer := [List.replicate numSamples x, List.replicate numSamples x] }
  else
    { totalNumInputChannels := 1, totalNumOutputChannels := 1, driveParameter := drive,
      mixParameter := mix, buffer := [List.replicate numSamples x] }

/-- Loop invariant of the zero-drive scenario (44100 Hz, Drive 0, constant input
0.5) after `j` processed frames: the sample rate, the drive smoother at rest at
0, and the envelope of every channel with an input at
`0.5 * (1 - (1 - attackCoeff)^j)`. -/
def ZeroDriveHalf (stereo : Bool) (j : Nat) (s : VT2BBlackProcessor ℝ) : Prop :=
  s.currentSampleRate = 44100 ∧
  s.envelopeL = 1 / 2 * (1 - (1 - attackCoeff Real.exp 44100) ^ j) ∧
  (stereo = true → s.envelopeR = 1 / 2 * (1 - (1 - attackCoeff Real.exp 44100) ^ j)) ∧
  s.smoothedDrive.target = 0 ∧ s.smoothedDrive.countdown = 0

/-- The mix smoother `j` frames into its 882-sample ramp to 1. -/
def MixRamp (j : Nat) (m : SmoothedValue ℝ) : Prop :=
  m.target = 1 ∧ m.countdown = 882 - j

/-- The mix smoother between blocks: on its ramp to 1, or, before the first
block, still at rest at 0 with the ramp length of 882 samples. -/
def MixBetweenBlocks (j : Nat) (m : SmoothedValue ℝ) : Prop :=
  MixRamp j m ∨ (j = 0 ∧ m.target = 0 ∧ m.stepsToTarget = 882)

/-- Both smoothers at rest, the drive smoother at `d` and the mix smoother at
`m`: the state in which Drive and Mix have settled. -/
def SettledAt (d m : ℝ) (s : VT2BBlackProcessor ℝ) : Prop :=
  s.smoothedDrive.target = d ∧ s.smoothedDrive.countdown = 0 ∧
  s.smoothedMix.target = m ∧ s.smoothedMix.countdown = 0

/-- A smoother `j` frames into an 882-sample ramp to `t`. -/
def RampTo (t : ℝ) (j : Nat) (m : SmoothedValue ℝ) : Prop :=
  m.target = t ∧ m.countdown = 882 - j

/-- The processor of the max-drive scenarios: a fresh processor prepared at
44100 Hz that has processed one mono block of 882 samples of silence with
Drive 10 and Mix 100, the 20 ms over which both smoothers reach their targets. -/
def settledMaxDrive {α : Type} [LinearOrderedField α] [FloorRing α] (exp : α → α)
    (pow : α → α → α) : VT2BBlackProcessor α :=
  (processCall exp pow (prepareToPlay init 44100 512) (constantCall false 10 100 0 882)).1

/-- The input of the sine scenario: `numSamples` samples of
`amplitude * sin (2 * pi * frequency * n / sampleRate)`; `sin` and `pi` stand for
the sine function and the constant of the host that generates the signal. -/
def sineInput {α : Type} [LinearOrderedField α] (sin : α → α) (pi : α)
    (amplitude frequency sampleRate : α) (numSamples : Nat) : List α :=
  (List.range numSamples).map
    (fun (n : Nat) => amplitude * sin (2 * pi * frequency * (n : α) / sampleRate))

end VT2BBlackProcessor

/-! ## Auxiliary lemmas about the memoryless stages -/

/-- Closed form of the saturation stage over the reals. -/
theorem processSaturation_eq (x d : ℝ) :
    processSaturation Real.rpow x d = x / (1 + d / 10 * 3 * |x| ^ (2.5 : ℝ)) := by
  simp only [processSaturation, kDriveMax, kSaturationCoeffMin, kSaturationCoeffMax,
    kSaturationCurve, Real.rpow_eq_pow]
  norm_num

/-- The denominator of the saturation curve is at least 1 for a drive that is
not negative. -/
theorem saturation_denominator_ge_one (x d : ℝ) (hd : 0 ≤ d) :
    1 ≤ 1 + d / 10 * 3 * |x| ^ (2.5 : ℝ) := by
  have h : 0 ≤ |x| ^ (2.5 : ℝ) := Real.rpow_nonneg (abs_nonneg x) _
  have : 0 ≤ d / 10 * 3 * |x| ^ (2.5 : ℝ) := by positivity
  linarith

/-- Closed form of the harmonic generator. -/
theorem processHarmonics_eq (x d : ℝ) :
    processHarmonics x d = d / 10 * (0.40 * x * |x| + 0.25 * x ^ 3) := by
  simp only [processHarmonics, kDriveMax, kHarmonic2ndAmount, kHarmonic3rdAmount]
  by_cases hx : 0 ≤ x
  · rw [if_pos (by simpa using hx), abs_of_nonneg hx]
    ring
  · rw [if_neg (by simpa using hx), abs_of_neg (not_le.mp hx)]
    ring

/-- Closed form of the makeup gain. -/
theorem calculateMakeupGain_eq (d : ℝ) :
    calculateMakeupGain d = 1 / (1 + d / 10 * 0.8) := by
  simp only [calculateMakeupGain, kDriveMax]
  norm_num

/-! ## C4, C8, C9, C10: the memoryless stages -/

/-- C4: for every input `x` and every drive `d ≥ 0`, `processSaturation x d` has
the sign of `x` (positive for positive `x`, negative for negative `x`, zero for
zero) and its magnitude is at most `|x|`. -/
theorem C4_saturation_sign_preserving_bounded (x d : ℝ) (hd : 0 ≤ d) :
    (0 < x → 0 < processSaturation Real.rpow x d) ∧
    (x < 0 → processSaturation Real.rpow x d < 0) ∧
    (x = 0 → processSaturation Real.rpow x d = 0) ∧
    |processSaturation Real.rpow x d| ≤ |x| := by
  have h1 := saturation_denominator_ge_one x d hd
  have hpos : 0 < 1 + d / 10 * 3 * |x| ^ (2.5 : ℝ) := by linarith
  rw [processSaturation_eq]
  refine ⟨fun hx => div_pos hx hpos, fun hx => div_neg_of_neg_of_pos hx hpos, ?_, ?_⟩
  · intro hx
    rw [hx, zero_div]
  · rw [abs_div, abs_of_pos hpos]
    exact div_le_self (abs_nonneg x) h1

/-- Witness of C4 at `x = -2`, `d = 10`. -/
theorem C4_saturation_sign_preserving_bounded_witness :
    ((0 : ℝ) < -2 → 0 < processSaturation Real.rpow (-2 : ℝ) 10) ∧
    ((-2 : ℝ) < 0 → processSaturation Real.rpow (-2 : ℝ) 10 < 0) ∧
    ((-2 : ℝ) = 0 → processSaturation Real.rpow (-2 : ℝ) 10 = 0) ∧
    |processSaturation Real.rpow (-2 : ℝ) 10| ≤ |(-2 : ℝ)| :=
  C4_saturation_sign_preserving_bounded (-2) 10 (by norm_num)

/-- C8, counterexample: at drive 0 and input 1 the added sample is 0; it is not
positive, so it does not have the sign of the input. -/
theorem C8_counterexample :
    processHarmonics (1 : ℝ) 0 = 0 ∧ ¬ (0 < processHarmonics (1 : ℝ) 0) := by
  have h : processHarmonics (1 : ℝ) 0 = 0 := by
    rw [processHarmonics_eq]
    norm_num
  exact ⟨h, by rw [h]; exact lt_irrefl 0⟩

/-- C8, amended: `processHarmonics x d = (d/10) * (0.40 * x * |x| + 0.25 * x^3)`;
for `d > 0` the added sample has exactly the sign of `x` (for every `d ≥ 0` it
never has the sign opposite to `x`, and at `d = 0` it is 0), and the stage is odd
in `x`. -/
theorem C8_harmonics_formula_sign_odd (x d : ℝ) :
    processHarmonics x d = d / 10 * (0.40 * x * |x| + 0.25 * x ^ 3) ∧
    (0 ≤ d → (0 ≤ x → 0 ≤ processHarmonics x d) ∧ (x ≤ 0 → processHarmonics x d ≤ 0)) ∧
    (0 < d → (0 < x → 0 < processHarmonics x d) ∧ (x < 0 → processHarmonics x d < 0)) ∧
    processHarmonics (-x) d = -processHarmonics x d := by
  refine ⟨processHarmonics_eq x d, ?_, ?_, ?_⟩
  · intro hd
    rw [processHarmonics_eq]
    constructor
    · intro hx
      rw [abs_of_nonneg hx]
      positivity
    · intro hx
      rw [abs_of_nonpos hx]
      have h3 : x ^ 3 ≤ 0 := by
        have : 0 ≤ (-x) ^ 3 := pow_nonneg (neg_nonneg.mpr hx) 3
        nlinarith
      have h2 : 0 ≤ x * x := mul_self_nonneg x
      have hd10 : 0 ≤ d / 10 := by positivity
      have : 0.40 * x * -x + 0.25 * x ^ 3 ≤ 0 := by nlinarith
      exact mul_nonpos_of_nonneg_of_nonpos hd10 this
  · intro hd
    rw [processHarmonics_eq]
    have hd10 : 0 < d / 10 := by positivity
    constructor
    · intro hx
      rw [abs_of_pos hx]
      positivity
    · intro hx
      rw [abs_of_neg hx]
      have h3 : x ^ 3 < 0 := by
        have : 0 < (-x) ^ 3 := pow_pos (neg_pos.mpr hx) 3
        nlinarith
      have h2 : 0 < x * x := mul_pos_of_neg_of_neg hx hx
      have : 0.40 * x * -x + 0.25 * x ^ 3 < 0 := by nlinarith
      exact mul_neg_of_pos_of_neg hd10 this
  · rw [processHarmonics_eq, processHarmonics_eq, abs_neg]
    ring

/-- C9: at drive 0 the memoryless stages are no-ops: saturation is the identity,
the harmonic generator adds 0 and the makeup gain is 1. -/
theorem C9_zero_drive_memoryless_noop (x : ℝ) :
    processSaturation Real.rpow x 0 = x ∧ processHarmonics x 0 = 0 ∧
    calculateMakeupGain (0 : ℝ) = 1 := by
  refine ⟨?_, ?_, ?_⟩
  · rw [processSaturation_eq]
    norm_num
  · rw [processHarmonics_eq]
    norm_num
  · rw [calculateMakeupGain_eq]
    norm_num

/-- C10: saturation is odd in its input for every drive:
`processSaturation (-x) d = -processSaturation x d`. -/
theorem C10_saturation_odd (x d : ℝ) :
    processSaturation Real.rpow (-x) d = -processSaturation Real.rpow x d := by
  rw [processSaturation_eq, processSaturation_eq, abs_neg, neg_div]

/-! ## Auxiliary lemmas about the transient shaper -/

/-- For a positive sample rate and a positive time constant the one-pole
coefficient `1 - exp (-1 / (sampleRate * t))` lies strictly between 0 and 1. -/
theorem one_pole_coeff_bounds (sr t : ℝ) (hsr : 0 < sr) (ht : 0 < t) :
    0 < 1 - Real.exp (-1 / (sr * t)) ∧ 1 - Real.exp (-1 / (sr * t)) < 1 := by
  have hneg : -1 / (sr * t) < 0 := div_neg_of_neg_of_pos (by norm_num) (mul_pos hsr ht)
  have h1 : Real.exp (-1 / (sr * t)) < 1 := Real.exp_lt_one_iff.mpr hneg
  have h0 : 0 < Real.exp (-1 / (sr * t)) := Real.exp_pos _
  constructor <;> linarith

/-- The attack coefficient lies strictly between 0 and 1 for a positive sample
rate. -/
theorem attackCoeff_bounds (sr : ℝ) (hsr : 0 < sr) :
    0 < attackCoeff Real.exp sr ∧ attackCoeff Real.exp sr < 1 := by
  simp only [attackCoeff, kEnvelopeAttack]
  exact one_pole_coeff_bounds sr _ hsr (by norm_num)

/-- The release coefficient lies strictly between 0 and 1 for a positive sample
rate. -/
theorem releaseCoeff_bounds (sr : ℝ) (hsr : 0 < sr) :
    0 < releaseCoeff Real.exp sr ∧ releaseCoeff Real.exp sr < 1 := by
  simp only [releaseCoeff, kEnvelopeRelease]
  exact one_pole_coeff_bounds sr _ hsr (by norm_num)

/-- The updated envelope lies between the previous envelope and `|input|`. -/
theorem envelopeFollower_between (sr x e : ℝ) (hsr : 0 < sr) :
    min e |x| ≤ envelopeFollower Real.exp sr x e ∧
    envelopeFollower Real.exp sr x e ≤ max e |x| := by
  obtain ⟨ha0, ha1⟩ := attackCoeff_bounds sr hsr
  obtain ⟨hr0, hr1⟩ := releaseCoeff_bounds sr hsr
  simp only [envelopeFollower]
  by_cases h : |x| > e
  · rw [if_pos h, min_eq_left (le_of_lt h), max_eq_right (le_of_lt h)]
    have hd : 0 < |x| - e := sub_pos.mpr h
    constructor <;> nlinarith
  · rw [if_neg h]
    have h' : |x| ≤ e := not_lt.mp h
    rw [min_eq_right h', max_eq_left h']
    have hd : 0 ≤ e - |x| := sub_nonneg.mpr h'
    constructor <;> nlinarith

/-- An envelope that is not negative stays so. -/
theorem envelopeFollower_nonneg (sr x e : ℝ) (hsr : 0 < sr) (he : 0 ≤ e) :
    0 ≤ envelopeFollower Real.exp sr x e :=
  le_trans (le_min he (abs_nonneg x)) (envelopeFollower_between sr x e hsr).1

/-- Closed form of the amount of the transient shaper. -/
theorem transientAmount_eq (d : ℝ) : transientAmount d = 0.08 + d / 10 * 0.42 := by
  simp only [transientAmount, kDriveMax, kTransientAmountMin, kTransientAmountMax]
  norm_num

/-- Closed form of the reduction of the transient shaper. -/
theorem transientReduction_eq (e d : ℝ) :
    transientReduction e d =
      if e > 0.2 then min 1 ((e - 0.2) / 0.15) * (0.08 + d / 10 * 0.42) else 0 := by
  simp only [transientReduction, transientAmount_eq, kTransientThreshold, kTransientKnee]

/-- The reduction lies between 0 and the amount when the amount is not negative. -/
theorem transientReduction_bounds (e d : ℝ) (hd : 0 ≤ d) :
    0 ≤ transientReduction e d ∧ transientReduction e d ≤ 0.08 + d / 10 * 0.42 := by
  rw [transientReduction_eq]
  have ha : (0 : ℝ) ≤ 0.08 + d / 10 * 0.42 := by positivity
  by_cases h : e > 0.2
  · rw [if_pos h]
    have hex : 0 < (e - 0.2) / 0.15 := div_pos (sub_pos.mpr h) (by norm_num)
    have hm0 : 0 ≤ min 1 ((e - 0.2) / 0.15) := le_min zero_le_one hex.le
    have hm1 : min 1 ((e - 0.2) / 0.15) ≤ 1 := min_le_left _ _
    constructor
    · exact mul_nonneg hm0 ha
    · nlinarith
  · rw [if_neg h]
    exact ⟨le_refl 0, ha⟩

/-- Above the threshold the reduction is strictly positive when the amount is. -/
theorem transientReduction_pos (e d : ℝ) (hd : 0 ≤ d) (he : 0.2 < e) :
    0 < transientReduction e d := by
  rw [transientReduction_eq, if_pos he]
  have ha : (0 : ℝ) < 0.08 + d / 10 * 0.42 := by positivity
  have hex : 0 < (e - 0.2) / 0.15 := div_pos (sub_pos.mpr he) (by norm_num)
  exact mul_pos (lt_min zero_lt_one hex) ha

/-! ## C3, C5: the transient shaper -/

/-- C3, counterexample: at drive 0, sample rate 44100, input 1 and envelope 1 the
transient shaper returns 0.92, not the input 1. -/
theorem C3_counterexample :
    (processTransient Real.exp 44100 1 1 0).1 = 0.92 ∧
    (processTransient Real.exp 44100 1 1 0).1 ≠ 1 := by
  have h : (processTransient Real.exp 44100 1 1 0).1 = 0.92 := by
    simp only [processTransient, envelopeFollower, transientReduction_eq]
    norm_num
  exact ⟨h, by rw [h]; norm_num⟩

/-- C3, amended: at drive 0 `processTransient` returns `x * (1 - r)` where the
reduction `r` is 0 when the updated envelope `e'` is at most 0.2 and
`0.08 * min 1 ((e' - 0.2) / 0.15)`, in `(0, 0.08]`, otherwise; so it returns
exactly `x` if and only if `x = 0` or `e' ≤ 0.2`.  The envelope is only
passively updated (by the envelope follower). -/
theorem C3_zero_drive_transient_amended (sr x e : ℝ) :
    (processTransient Real.exp sr x e 0).2 = envelopeFollower Real.exp sr x e ∧
    (processTransient Real.exp sr x e 0).1 =
      x * (1 - transientReduction (envelopeFollower Real.exp sr x e) 0) ∧
    (envelopeFollower Real.exp sr x e ≤ 0.2 →
      transientReduction (envelopeFollower Real.exp sr x e) 0 = 0) ∧
    (0.2 < envelopeFollower Real.exp sr x e →
      transientReduction (envelopeFollower Real.exp sr x e) 0 =
        0.08 * min 1 ((envelopeFollower Real.exp sr x e - 0.2) / 0.15) ∧
      0 < transientReduction (envelopeFollower Real.exp sr x e) 0 ∧
      transientReduction (envelopeFollower Real.exp sr x e) 0 ≤ 0.08) ∧
    ((processTransient Real.exp sr x e 0).1 = x ↔
      (x = 0 ∨ envelopeFollower Real.exp sr x e ≤ 0.2)) := by
  have hb := transientReduction_bounds (envelopeFollower Real.exp sr x e) 0 (le_refl 0)
  refine ⟨rfl, rfl, ?_, ?_, ?_⟩
  · intro h
    rw [transientReduction_eq, if_neg (not_lt.mpr h)]
  · intro h
    refine ⟨?_, transientReduction_pos _ 0 (le_refl 0) h, by linarith [hb.2]⟩
    rw [transientReduction_eq, if_pos h]
    ring
  · show x * (1 - transientReduction (envelopeFollower Real.exp sr x e) 0) = x ↔ _
    constructor
    · intro h
      by_cases hx : x = 0
      · exact Or.inl hx
      · right
        by_contra hlt
        have hpos := transientReduction_pos _ 0 (le_refl 0) (not_le.mp hlt)
        have : x * transientReduction (envelopeFollower Real.exp sr x e) 0 = 0 := by linarith
        rcases mul_eq_zero.mp this with h0 | h0
        · exact hx h0
        · linarith
    · rintro (hx | he)
      · rw [hx, zero_mul]
      · rw [transientReduction_eq, if_neg (not_lt.mpr he)]
        ring

/-- C5: for a drive in `[0, 10]` the reduction computed by `processTransient`
from the updated envelope `e'` lies in `[0, 1]`; it is 0 when `e' ≤ 0.2` and
`min 1 ((e' - 0.2) / 0.15) * (0.08 + (d/10) * 0.42)` otherwise; the returned
sample is `x * (1 - reduction)`, has the sign of `x` and magnitude at most `|x|`.
This holds for every sample rate. -/
theorem C5_transient_downward_only (sr x e d : ℝ) (hd0 : 0 ≤ d) (hd1 : d ≤ 10) :
    0 ≤ transientReduction (processTransient Real.exp sr x e d).2 d ∧
    transientReduction (processTransient Real.exp sr x e d).2 d ≤ 1 ∧
    ((processTransient Real.exp sr x e d).2 ≤ 0.2 →
      transientReduction (processTransient Real.exp sr x e d).2 d = 0) ∧
    (0.2 < (processTransient Real.exp sr x e d).2 →
      transientReduction (processTransient Real.exp sr x e d).2 d =
        min 1 (((processTransient Real.exp sr x e d).2 - 0.2) / 0.15) *
          (0.08 + d / 10 * 0.42)) ∧
    (processTransient Real.exp sr x e d).1 =
      x * (1 - transientReduction (processTransient Real.exp sr x e d).2 d) ∧
    |(processTransient Real.exp sr x e d).1| ≤ |x| ∧
    (0 < x → 0 < (processTransient Real.exp sr x e d).1) ∧
    (x < 0 → (processTransient Real.exp sr x e d).1 < 0) ∧
    (x = 0 → (processTransient Real.exp sr x e d).1 = 0) := by
  have hb := transientReduction_bounds (processTransient Real.exp sr x e d).2 d hd0
  have hamt : 0.08 + d / 10 * 0.42 ≤ (0.5 : ℝ) := by linarith
  have hr1 : transientReduction (processTransient Real.exp sr x e d).2 d ≤ 0.5 :=
    le_trans hb.2 hamt
  have hfac0 : 0 < 1 - transientReduction (processTransient Real.exp sr x e d).2 d := by
    linarith
  have hfac1 : 1 - transientReduction (processTransient Real.exp sr x e d).2 d ≤ 1 := by
    linarith [hb.1]
  have hout : (processTransient Real.exp sr x e d).1 =
      x * (1 - transientReduction (processTransient Real.exp sr x e d).2 d) := rfl
  refine ⟨hb.1, by linarith, ?_, ?_, hout, ?_, ?_, ?_, ?_⟩
  · intro h
    rw [transientReduction_eq, if_neg (not_lt.mpr h)]
  · intro h
    rw [transientReduction_eq, if_pos h]
  · rw [hout, abs_mul, abs_of_pos hfac0]
    exact mul_le_of_le_one_right (abs_nonneg x) hfac1
  · intro hx
    rw [hout]
    exact mul_pos hx hfac0
  · intro hx
    rw [hout]
    exact mul_neg_of_neg_of_pos hx hfac0
  · intro hx
    rw [hout, hx, zero_mul]

/-- Witness of C5 at sample rate 44100, input 1, envelope 1 and drive 10. -/
theorem C5_transient_downward_only_witness :
    (0 : ℝ) ≤ 10 ∧ (10 : ℝ) ≤ 10 ∧
    (processTransient Real.exp 44100 1 1 10).1 =
      1 * (1 - transientReduction (processTransient Real.exp 44100 1 1 10).2 10) ∧
    |(processTransient Real.exp 44100 1 1 10).1| ≤ |(1 : ℝ)| :=
  ⟨by norm_num, le_refl _,
    (C5_transient_downward_only 44100 1 1 10 (by norm_num) (le_refl _)).2.2.2.2.1,
    (C5_transient_downward_only 44100 1 1 10 (by norm_num) (le_refl _)).2.2.2.2.2.1⟩

/-! ## Auxiliary lemmas about the sample loop -/

namespace VT2BBlackProcessor

/-- The wet sample: makeup gain times the transient shaper run on saturation
plus harmonics of the boosted dry sample. -/
theorem wetChannel_fst (exp : ℝ → ℝ) (pow : ℝ → ℝ → ℝ) (sr x e d : ℝ) :
    (wetChannel exp pow sr x e d).1 =
      calculateMakeupGain d *
        (processTransient exp sr
          (processSaturation pow ((1 + d / 10 * 1.5) * x) d +
            processHarmonics ((1 + d / 10 * 1.5) * x) d) e d).1 := by
  simp only [wetChannel, kDriveMax]
  norm_num
  rw [mul_comm x]
  ring

/-- The envelope a channel is left with. -/
theorem wetChannel_snd (exp : ℝ → ℝ) (pow : ℝ → ℝ → ℝ) (sr x e d : ℝ) :
    (wetChannel exp pow sr x e d).2 =
      envelopeFollower exp sr
        (processSaturation pow ((1 + d / 10 * 1.5) * x) d +
          processHarmonics ((1 + d / 10 * 1.5) * x) d) e := by
  simp only [wetChannel, processTransient, kDriveMax]
  norm_num
  rw [mul_comm x]

/-- The value one loop iteration stores to the left channel. -/
theorem processSample_outL (exp : ℝ → ℝ) (pow : ℝ → ℝ → ℝ) (p : VT2BBlackProcessor ℝ)
    (dryL : ℝ) (dryR : Option ℝ) :
    (processSample exp pow p dryL dryR).2.1 =
      dryL * (1 - p.smoothedMix.getNextValue.1) +
        (wetChannel exp pow p.currentSampleRate dryL p.envelopeL
          p.smoothedDrive.getNextValue.1).1 * p.smoothedMix.getNextValue.1 := by
  cases dryR <;> norm_num [processSample]

/-- The value one loop iteration stores to the right channel, when it exists. -/
theorem processSample_outR (exp : ℝ → ℝ) (pow : ℝ → ℝ → ℝ) (p : VT2BBlackProcessor ℝ)
    (dryL : ℝ) (dryR : Option ℝ) :
    (processSample exp pow p dryL dryR).2.2 =
      dryR.map (fun y =>
        y * (1 - p.smoothedMix.getNextValue.1) +
          (wetChannel exp pow p.currentSampleRate y p.envelopeR
            p.smoothedDrive.getNextValue.1).1 * p.smoothedMix.getNextValue.1) := by
  cases dryR <;> norm_num [processSample]

/-- One loop iteration leaves the sample rate alone. -/
theorem processSample_sampleRate (exp : ℝ → ℝ) (pow : ℝ → ℝ → ℝ)
    (p : VT2BBlackProcessor ℝ) (dryL : ℝ) (dryR : Option ℝ) :
    (processSample exp pow p dryL dryR).1.currentSampleRate = p.currentSampleRate := by
  cases dryR <;> norm_num [processSample]

/-- The left envelope after one loop iteration. -/
theorem processSample_envelopeL (exp : ℝ → ℝ) (pow : ℝ → ℝ → ℝ)
    (p : VT2BBlackProcessor ℝ) (dryL : ℝ) (dryR : Option ℝ) :
    (processSample exp pow p dryL dryR).1.envelopeL =
      (wetChannel exp pow p.currentSampleRate dryL p.envelopeL
        p.smoothedDrive.getNextValue.1).2 := by
  cases dryR <;> norm_num [processSample]

/-- The right envelope after one loop iteration: updated only when the right
channel has its own input. -/
theorem processSample_envelopeR (exp : ℝ → ℝ) (pow : ℝ → ℝ → ℝ)
    (p : VT2BBlackProcessor ℝ) (dryL : ℝ) (dryR : Option ℝ) :
    (processSample exp pow p dryL dryR).1.envelopeR =
      match dryR with
      | some y => (wetChannel exp pow p.currentSampleRate y p.envelopeR
          p.smoothedDrive.getNextValue.1).2
      | none => p.envelopeR := by
  cases dryR <;> norm_num [processSample]

/-- The smoothers after one loop iteration. -/
theorem processSample_smoothers (exp : ℝ → ℝ) (pow : ℝ → ℝ → ℝ)
    (p : VT2BBlackProcessor ℝ) (dryL : ℝ) (dryR : Option ℝ) :
    (processSample exp pow p dryL dryR).1.smoothedDrive = p.smoothedDrive.getNextValue.2 ∧
    (processSample exp pow p dryL dryR).1.smoothedMix = p.smoothedMix.getNextValue.2 := by
  cases dryR <;> norm_num [processSample]

/-- The loop over a concatenation: run the first part, then the second. -/
theorem sampleLoop_append (exp : ℝ → ℝ) (pow : ℝ → ℝ → ℝ) (p : VT2BBlackProcessor ℝ)
    (fs gs : List (ℝ × Option ℝ)) :
    sampleLoop exp pow p (fs ++ gs) =
      ((sampleLoop exp pow (sampleLoop exp pow p fs).1 gs).1,
        (sampleLoop exp pow p fs).2 ++ (sampleLoop exp pow (sampleLoop exp pow p fs).1 gs).2) := by
  induction fs generalizing p with
  | nil => simp [sampleLoop]
  | cons f fs ih =>
    obtain ⟨l, r⟩ := f
    simp only [List.cons_append, sampleLoop, List.append_eq]
    rw [ih]

/-- The loop writes one output frame per input frame. -/
theorem sampleLoop_length (exp : ℝ → ℝ) (pow : ℝ → ℝ → ℝ) (p : VT2BBlackProcessor ℝ)
    (fs : List (ℝ × Option ℝ)) : (sampleLoop exp pow p fs).2.length = fs.length := by
  induction fs generalizing p with
  | nil => simp [sampleLoop]
  | cons f fs ih =>
    obtain ⟨l, r⟩ := f
    simp [sampleLoop, ih]

/-- The frame written at index `i` is the result of the loop body run from the
state the loop has reached after the first `i` frames. -/
theorem sampleLoop_getElem? (exp : ℝ → ℝ) (pow : ℝ → ℝ → ℝ) (p : VT2BBlackProcessor ℝ)
    (fs : List (ℝ × Option ℝ)) (i : ℕ) (x : ℝ) (r : Option ℝ)
    (h : fs[i]? = some (x, r)) :
    (sampleLoop exp pow p fs).2[i]? =
      some (processSample exp pow (sampleLoop exp pow p (fs.take i)).1 x r).2 := by
  induction fs generalizing p i with
  | nil => simp at h
  | cons f fs ih =>
    obtain ⟨l, r'⟩ := f
    cases i with
    | zero =>
      simp only [List.getElem?_cons_zero, Option.some.injEq, Prod.mk.injEq] at h
      obtain ⟨h1, h2⟩ := h
      subst h1 h2
      simp [sampleLoop]
    | succ i =>
      simp only [List.getElem?_cons_succ] at h
      simp only [sampleLoop, List.getElem?_cons_succ, List.take_succ_cons]
      exact ih _ i h

/-- One loop iteration keeps the sample rate and keeps envelopes that are not
negative so, for a positive sample rate. -/
theorem processSample_invariant (p : VT2BBlackProcessor ℝ) (dryL : ℝ) (dryR : Option ℝ)
    (hsr : 0 < p.currentSampleRate) (hL : 0 ≤ p.envelopeL) (hR : 0 ≤ p.envelopeR) :
    0 < (processSample Real.exp Real.rpow p dryL dryR).1.currentSampleRate ∧
    0 ≤ (processSample Real.exp Real.rpow p dryL dryR).1.envelopeL ∧
    0 ≤ (processSample Real.exp Real.rpow p dryL dryR).1.envelopeR := by
  refine ⟨by rw [processSample_sampleRate]; exact hsr, ?_, ?_⟩
  · rw [processSample_envelopeL, wetChannel_snd]
    exact envelopeFollower_nonneg _ _ _ hsr hL
  · rw [processSample_envelopeR]
    cases dryR with
    | none => exact hR
    | some y =>
      show 0 ≤ (wetChannel Real.exp Real.rpow p.currentSampleRate y p.envelopeR
        p.smoothedDrive.getNextValue.1).2
      rw [wetChannel_snd]
      exact envelopeFollower_nonneg _ _ _ hsr hR

/-- The sample loop keeps the invariant of `processSample_invariant`. -/
theorem sampleLoop_invariant (p : VT2BBlackProcessor ℝ) (fs : List (ℝ × Option ℝ))
    (hsr : 0 < p.currentSampleRate) (hL : 0 ≤ p.envelopeL) (hR : 0 ≤ p.envelopeR) :
    0 < (sampleLoop Real.exp Real.rpow p fs).1.currentSampleRate ∧
    0 ≤ (sampleLoop Real.exp Real.rpow p fs).1.envelopeL ∧
    0 ≤ (sampleLoop Real.exp Real.rpow p fs).1.envelopeR := by
  induction fs generalizing p with
  | nil => exact ⟨hsr, hL, hR⟩
  | cons f fs ih =>
    obtain ⟨l, r⟩ := f
    obtain ⟨h1, h2, h3⟩ := processSample_invariant p l r hsr hL hR
    exact ih _ h1 h2 h3

/-- A whole block keeps the invariant, whatever the layout, the parameters and
the buffer. -/
theorem processBlock_invariant (p : VT2BBlackProcessor ℝ) (nIn nOut : ℕ) (drive mix : ℝ)
    (buffer : List (List ℝ))
    (hsr : 0 < p.currentSampleRate) (hL : 0 ≤ p.envelopeL) (hR : 0 ≤ p.envelopeR) :
    0 < (processBlock Real.exp Real.rpow p nIn nOut drive mix buffer).1.currentSampleRate ∧
    0 ≤ (processBlock Real.exp Real.rpow p nIn nOut drive mix buffer).1.envelopeL ∧
    0 ≤ (processBlock Real.exp Real.rpow p nIn nOut drive mix buffer).1.envelopeR := by
  simp only [processBlock]
  exact sampleLoop_invariant _ _ hsr hL hR

/-- Any sequence of blocks keeps the invariant. -/
theorem runBlocks_invariant (p : VT2BBlackProcessor ℝ) (calls : List (BlockCall ℝ))
    (hsr : 0 < p.currentSampleRate) (hL : 0 ≤ p.envelopeL) (hR : 0 ≤ p.envelopeR) :
    0 < (runBlocks Real.exp Real.rpow p calls).currentSampleRate ∧
    0 ≤ (runBlocks Real.exp Real.rpow p calls).envelopeL ∧
    0 ≤ (runBlocks Real.exp Real.rpow p calls).envelopeR := by
  induction calls generalizing p with
  | nil => exact ⟨hsr, hL, hR⟩
  | cons c cs ih =>
    obtain ⟨h1, h2, h3⟩ := processBlock_invariant p c.totalNumInputChannels
      c.totalNumOutputChannels c.driveParameter c.mixParameter c.buffer hsr hL hR
    exact ih (processCall Real.exp Real.rpow p c).1 h1 h2 h3

/-! ## C1, C6, C7: the sample loop -/

/-- C1: the frame the sample loop writes at index `i`.  With `q` the processor
state reached before that sample, `d` and `m` the smoothed drive and mix pulled
for it, `g = 1 + (d/10) * 1.5` and `e` the channel's envelope in `q`, a channel
with input `x` gets
`x*(1-m) + m * calculateMakeupGain d * processTransient (processSaturation (g*x) d + processHarmonics (g*x) d) e d`:
harmonics from the boosted dry sample, the transient shaper on the sum, makeup
gain last. -/
theorem C1_written_sample_formula (p : VT2BBlackProcessor ℝ) (fs : List (ℝ × Option ℝ))
    (i : ℕ) (x : ℝ) (r : Option ℝ) (h : fs[i]? = some (x, r)) :
    let q := (sampleLoop Real.exp Real.rpow p (fs.take i)).1
    let d := q.smoothedDrive.getNextValue.1
    let m := q.smoothedMix.getNextValue.1
    let g := 1 + d / 10 * 1.5
    (sampleLoop Real.exp Real.rpow p fs).2[i]? =
      some
        (x * (1 - m) + m * calculateMakeupGain d *
            (processTransient Real.exp q.currentSampleRate
              (processSaturation Real.rpow (g * x) d + processHarmonics (g * x) d)
              q.envelopeL d).1,
          r.map (fun y =>
            y * (1 - m) + m * calculateMakeupGain d *
              (processTransient Real.exp q.currentSampleRate
                (processSaturation Real.rpow (g * y) d + processHarmonics (g * y) d)
                q.envelopeR d).1)) := by
  intro q d m g
  rw [sampleLoop_getElem? Real.exp Real.rpow p fs i x r h]
  congr 1
  apply Prod.ext
  · show (processSample Real.exp Real.rpow q x r).2.1 = _
    rw [processSample_outL, wetChannel_fst]
    ring
  · show (processSample Real.exp Real.rpow q x r).2.2 = _
    rw [processSample_outR]
    congr 1
    funext y
    rw [wetChannel_fst]
    ring

/-- C7: when the smoothed mix pulled for a sample is 0 the loop body writes the
dry samples exactly, and when it is 1 it writes the wet samples exactly. -/
theorem C7_mix_boundary (p : VT2BBlackProcessor ℝ) (dryL : ℝ) (dryR : Option ℝ) :
    (p.smoothedMix.getNextValue.1 = 0 →
      (processSample Real.exp Real.rpow p dryL dryR).2.1 = dryL ∧
      (processSample Real.exp Real.rpow p dryL dryR).2.2 = dryR) ∧
    (p.smoothedMix.getNextValue.1 = 1 →
      (processSample Real.exp Real.rpow p dryL dryR).2.1 =
        (wetChannel Real.exp Real.rpow p.currentSampleRate dryL p.envelopeL
          p.smoothedDrive.getNextValue.1).1 ∧
      (processSample Real.exp Real.rpow p dryL dryR).2.2 =
        dryR.map (fun y =>
          (wetChannel Real.exp Real.rpow p.currentSampleRate y p.envelopeR
            p.smoothedDrive.getNextValue.1).1)) := by
  constructor
  · intro hm
    rw [processSample_outL, processSample_outR, hm]
    constructor
    · ring
    · cases dryR <;> simp
  · intro hm
    rw [processSample_outL, processSample_outR, hm]
    constructor
    · ring
    · cases dryR <;> simp

/-- C6: for a positive sample rate, `prepareToPlay` zeroes both envelopes; the
attack and release coefficients lie strictly between 0 and 1; every
`processTransient` call moves the envelope, by the attack coefficient when
`|input|` exceeds it and by the release coefficient otherwise, to a value
between its previous value and `|input|`; and after `prepareToPlay` and any
sequence of `processBlock` calls neither envelope is negative. -/
theorem C6_envelope_invariant (sr : ℝ) (hsr : 0 < sr) :
    (∀ (p : VT2BBlackProcessor ℝ) (n : ℕ),
      (prepareToPlay p sr n).envelopeL = 0 ∧ (prepareToPlay p sr n).envelopeR = 0) ∧
    (0 < attackCoeff Real.exp sr ∧ attackCoeff Real.exp sr < 1 ∧
      attackCoeff Real.exp sr = 1 - Real.exp (-1 / (sr * 0.001))) ∧
    (0 < releaseCoeff Real.exp sr ∧ releaseCoeff Real.exp sr < 1 ∧
      releaseCoeff Real.exp sr = 1 - Real.exp (-1 / (sr * 0.050))) ∧
    (∀ x e d : ℝ,
      (processTransient Real.exp sr x e d).2 =
        (if |x| > e then e + attackCoeff Real.exp sr * (|x| - e)
          else e + releaseCoeff Real.exp sr * (|x| - e)) ∧
      min e |x| ≤ (processTransient Real.exp sr x e d).2 ∧
      (processTransient Real.exp sr x e d).2 ≤ max e |x|) ∧
    (∀ (p : VT2BBlackProcessor ℝ) (n : ℕ) (calls : List (BlockCall ℝ)),
      0 ≤ (runBlocks Real.exp Real.rpow (prepareToPlay p sr n) calls).envelopeL ∧
      0 ≤ (runBlocks Real.exp Real.rpow (prepareToPlay p sr n) calls).envelopeR) := by
  refine ⟨?_, ?_, ?_, ?_, ?_⟩
  · intro p n
    norm_num [prepareToPlay]
  · exact ⟨(attackCoeff_bounds sr hsr).1, (attackCoeff_bounds sr hsr).2, rfl⟩
  · exact ⟨(releaseCoeff_bounds sr hsr).1, (releaseCoeff_bounds sr hsr).2, rfl⟩
  · intro x e d
    exact ⟨rfl, envelopeFollower_between sr x e hsr⟩
  · intro p n calls
    have h := runBlocks_invariant (prepareToPlay p sr n) calls
      (by simpa [prepareToPlay] using hsr) (by norm_num [prepareToPlay])
      (by norm_num [prepareToPlay])
    exact ⟨h.2.1, h.2.2⟩

/-! ## Auxiliary lemmas for the zero-drive scenario -/

/-- At drive 0 the chain of one channel is the transient shaper alone, run on the
dry sample. -/
theorem wetChannel_zero_drive (sr x e : ℝ) :
    wetChannel Real.exp Real.rpow sr x e 0 =
      (x * (1 - transientReduction (envelopeFollower Real.exp sr x e) 0),
        envelopeFollower Real.exp sr x e) := by
  have hg : (1 + (0 : ℝ) / 10 * 1.5) * x = x := by norm_num
  have hin : processSaturation Real.rpow x 0 + processHarmonics x 0 = x := by
    rw [processSaturation_eq, processHarmonics_eq]
    norm_num
  apply Prod.ext
  · rw [wetChannel_fst, hg, hin, calculateMakeupGain_eq]
    simp only [processTransient]
    norm_num
  · rw [wetChannel_snd, hg, hin]

/-- Fed a constant magnitude from an envelope of 0, the follower stays on its
attack branch: after `j` samples it has covered the share `1 - (1 - attackCoeff)^j`
of the way. -/
theorem envelopeFollower_constant (sr x : ℝ) (hsr : 0 < sr) (j : ℕ) :
    envelopeFollower Real.exp sr x (|x| * (1 - (1 - attackCoeff Real.exp sr) ^ j)) =
      |x| * (1 - (1 - attackCoeff Real.exp sr) ^ (j + 1)) := by
  obtain ⟨ha0, ha1⟩ := attackCoeff_bounds sr hsr
  have hc : 0 < (1 - attackCoeff Real.exp sr) ^ j := pow_pos (by linarith) j
  simp only [envelopeFollower]
  rcases (abs_nonneg x).eq_or_lt with h0 | hpos
  · rw [← h0]
    simp
  · have hlt : |x| > |x| * (1 - (1 - attackCoeff Real.exp sr) ^ j) := by nlinarith
    rw [if_pos hlt, pow_succ]
    ring

/-- At 44100 Hz the attack pole `1 - attackCoeff` is `exp (-1 / 44.1)`: its 882nd
power is `exp (-20)`, below 3/10, and so is every higher power. -/
theorem attack_pole_pow_small (j : ℕ) (hj : 882 ≤ j) :
    (1 - attackCoeff Real.exp 44100) ^ j < 3 / 10 := by
  obtain ⟨ha0, ha1⟩ := attackCoeff_bounds 44100 (by norm_num)
  have hq0 : 0 ≤ 1 - attackCoeff Real.exp 44100 := by linarith
  have hq1 : 1 - attackCoeff Real.exp 44100 ≤ 1 := by linarith
  have hq : 1 - attackCoeff Real.exp 44100 = Real.exp (-1 / (44100 * 0.001)) := by
    simp only [attackCoeff, kEnvelopeAttack]
    ring
  have h20 : (21 : ℝ) ≤ Real.exp 20 := by
    have := Real.add_one_le_exp (20 : ℝ)
    linarith only [this]
  have hexp : Real.exp (-20) < 3 / 10 := by
    rw [Real.exp_neg]
    have hpos : (0 : ℝ) < Real.exp 20 := Real.exp_pos _
    rw [inv_lt_comm₀ hpos (by norm_num)]
    linarith only [h20]
  have h882 : (1 - attackCoeff Real.exp 44100) ^ 882 = Real.exp (-20) := by
    rw [hq, ← Real.exp_nat_mul]
    congr 1
    norm_num
  calc (1 - attackCoeff Real.exp 44100) ^ j
      ≤ (1 - attackCoeff Real.exp 44100) ^ 882 := pow_le_pow_of_le_one hq0 hq1 hj
    _ = Real.exp (-20) := h882
    _ < 3 / 10 := hexp

/-- Once the envelope has passed threshold plus knee, the reduction at drive 0 is
the whole minimum amount 0.08. -/
theorem transientReduction_zero_drive_full (e : ℝ) (he : 0.35 ≤ e) :
    transientReduction e 0 = 0.08 := by
  rw [transientReduction_eq, if_pos (by linarith)]
  have h1 : 1 ≤ (e - 0.2) / 0.15 := by
    rw [le_div_iff₀ (by norm_num)]
    linarith
  rw [min_eq_left h1]
  norm_num

/-- A smoother that is not ramping returns its target and does not change. -/
theorem getNextValue_at_rest (m : SmoothedValue ℝ) (h : m.countdown = 0) :
    m.getNextValue = (m.target, m) := by
  simp [SmoothedValue.getNextValue, h]

/-- One pull of the mix smoother on its ramp: the ramp advances, and from the
882nd pull on the value is the target 1. -/
theorem getNextValue_mixRamp (j : ℕ) (m : SmoothedValue ℝ) (h : MixRamp j m) :
    MixRamp (j + 1) m.getNextValue.2 ∧ (881 ≤ j → m.getNextValue.1 = 1) := by
  obtain ⟨ht, hc⟩ := h
  simp only [MixRamp, SmoothedValue.getNextValue]
  by_cases h0 : m.countdown = 0
  · rw [if_pos h0]
    exact ⟨⟨ht, by show m.countdown = 882 - (j + 1); omega⟩, fun _ => ht⟩
  · rw [if_neg h0]
    by_cases h1 : m.countdown - 1 = 0
    · rw [if_pos h1]
      exact ⟨⟨ht, by show 0 = 882 - (j + 1); omega⟩, fun _ => ht⟩
    · rw [if_neg h1]
      exact ⟨⟨ht, by show m.countdown - 1 = 882 - (j + 1); omega⟩, fun hj => by omega⟩

/-- One loop iteration of the zero-drive scenario: the invariant advances by one
frame, and from the 882nd frame on the frame written is 0.46 on every channel. -/
theorem processSample_zeroDriveHalf (stereo : Bool) (j : ℕ) (s : VT2BBlackProcessor ℝ)
    (hs : ZeroDriveHalf stereo j s) (hm : MixRamp j s.smoothedMix) :
    ZeroDriveHalf stereo (j + 1)
      (processSample Real.exp Real.rpow s (1 / 2) (if stereo then some (1 / 2) else none)).1 ∧
    MixRamp (j + 1)
      (processSample Real.exp Real.rpow s (1 / 2)
        (if stereo then some (1 / 2) else none)).1.smoothedMix ∧
    (881 ≤ j →
      (processSample Real.exp Real.rpow s (1 / 2) (if stereo then some (1 / 2) else none)).2 =
        (0.46, if stereo then some 0.46 else none)) := by
  obtain ⟨hsr, hL, hR, hdt, hdc⟩ := hs
  have hd : s.smoothedDrive.getNextValue = (0, s.smoothedDrive) := by
    rw [getNextValue_at_rest _ hdc, hdt]
  have hmix := getNextValue_mixRamp j _ hm
  have habs : |(1 / 2 : ℝ)| = 1 / 2 := abs_of_pos (by norm_num)
  have henv : envelopeFollower Real.exp 44100 (1 / 2)
      (1 / 2 * (1 - (1 - attackCoeff Real.exp 44100) ^ j)) =
      1 / 2 * (1 - (1 - attackCoeff Real.exp 44100) ^ (j + 1)) := by
    have h := envelopeFollower_constant 44100 (1 / 2) (by norm_num) j
    rwa [habs] at h
  have hwet : wetChannel Real.exp Real.rpow 44100 (1 / 2)
      (1 / 2 * (1 - (1 - attackCoeff Real.exp 44100) ^ j)) 0 =
      (1 / 2 * (1 - transientReduction
          (1 / 2 * (1 - (1 - attackCoeff Real.exp 44100) ^ (j + 1))) 0),
        1 / 2 * (1 - (1 - attackCoeff Real.exp 44100) ^ (j + 1))) := by
    rw [wetChannel_zero_drive, henv]
  refine ⟨⟨?_, ?_, ?_, ?_, ?_⟩, ?_, ?_⟩
  · rw [processSample_sampleRate]
    exact hsr
  · rw [processSample_envelopeL, hd, hsr, hL, hwet]
  · intro hst
    subst hst
    rw [processSample_envelopeR]
    simp only [if_true]
    rw [hd, hsr, hR rfl, hwet]
  · rw [(processSample_smoothers _ _ _ _ _).1, hd]
    exact hdt
  · rw [(processSample_smoothers _ _ _ _ _).1, hd]
    exact hdc
  · rw [(processSample_smoothers _ _ _ _ _).2]
    exact hmix.1
  · intro hj
    have hpow := attack_pole_pow_small (j + 1) (by omega)
    have hfull : transientReduction
        (1 / 2 * (1 - (1 - attackCoeff Real.exp 44100) ^ (j + 1))) 0 = 0.08 :=
      transientReduction_zero_drive_full _ (by linarith only [hpow])
    apply Prod.ext
    · rw [processSample_outL, hd, hmix.2 hj, hsr, hL, hwet, hfull]
      norm_num
    · rw [processSample_outR, hd, hmix.2 hj, hsr]
      cases stereo with
      | false => simp
      | true =>
        simp only [if_true, Option.map_some']
        rw [hR rfl, hwet, hfull]
        norm_num

/-- The sample loop of the zero-drive scenario over `n` constant frames. -/
theorem sampleLoop_zeroDriveHalf (stereo : Bool) (n j : ℕ) (s : VT2BBlackProcessor ℝ)
    (hs : ZeroDriveHalf stereo j s) (hm : MixRamp j s.smoothedMix) :
    ZeroDriveHalf stereo (j + n)
      (sampleLoop Real.exp Real.rpow s
        (List.replicate n (1 / 2, if stereo then some (1 / 2) else none))).1 ∧
    MixRamp (j + n)
      (sampleLoop Real.exp Real.rpow s
        (List.replicate n (1 / 2, if stereo then some (1 / 2) else none))).1.smoothedMix ∧
    ∀ i, i < n → 881 ≤ j + i →
      (sampleLoop Real.exp Real.rpow s
        (List.replicate n (1 / 2, if stereo then some (1 / 2) else none))).2[i]? =
        some (0.46, if stereo then some 0.46 else none) := by
  induction n generalizing j s with
  | zero => exact ⟨hs, hm, fun i hi => absurd hi (Nat.not_lt_zero i)⟩
  | succ n ih =>
    obtain ⟨h1, h2, h3⟩ := processSample_zeroDriveHalf stereo j s hs hm
    obtain ⟨k1, k2, k3⟩ := ih (j + 1) _ h1 h2
    simp only [List.replicate_succ, sampleLoop]
    refine ⟨?_, ?_, ?_⟩
    · rw [show j + (n + 1) = j + 1 + n by omega]
      exact k1
    · rw [show j + (n + 1) = j + 1 + n by omega]
      exact k2
    · intro i hi hji
      cases i with
      | zero =>
        rw [List.getElem?_cons_zero, h3 (by omega)]
      | succ i =>
        rw [List.getElem?_cons_succ]
        exact k3 i (by omega) (by omega)

/-- Layouts with as many inputs as outputs have no channel to clear. -/
theorem clearUnused_same (n : ℕ) (buffer : List (List ℝ)) :
    clearUnused n n buffer = buffer := by
  apply List.ext_getElem?
  intro i
  simp only [clearUnused, List.getElem?_mapIdx]
  cases h : buffer[i]? with
  | none => rfl
  | some ch =>
    have : ¬ (n ≤ i ∧ i < n) := by omega
    simp [this]

/-- When every written frame has a right sample, the right channel written back
holds, at each index, the right sample of the frame of that index. -/
theorem filterMap_snd_getElem? (outs : List (ℝ × Option ℝ))
    (h : ∀ o ∈ outs, o.2.isSome = true) (i : ℕ) :
    (outs.filterMap (fun o => o.2))[i]? = outs[i]?.bind (fun o => o.2) := by
  induction outs generalizing i with
  | nil => simp
  | cons o outs ih =>
    have ho := h o (List.mem_cons_self _ _)
    obtain ⟨y, hy⟩ := Option.isSome_iff_exists.mp ho
    have ih' := ih (fun o' ho' => h o' (List.mem_cons_of_mem _ ho'))
    rw [List.filterMap_cons_some hy]
    cases i with
    | zero => simp [hy]
    | succ i => simpa using ih' i

/-- A frame is written with a right sample exactly when it was read with one. -/
theorem sampleLoop_right_isSome (exp : ℝ → ℝ) (pow : ℝ → ℝ → ℝ) (p : VT2BBlackProcessor ℝ)
    (fs : List (ℝ × Option ℝ)) (h : ∀ f ∈ fs, f.2.isSome = true) :
    ∀ o ∈ (sampleLoop exp pow p fs).2, o.2.isSome = true := by
  induction fs generalizing p with
  | nil => simp [sampleLoop]
  | cons f fs ih =>
    obtain ⟨l, r⟩ := f
    intro o ho
    simp only [sampleLoop, List.mem_cons] at ho
    rcases ho with ho | ho
    · rw [ho, processSample_outR]
      have := h (l, r) (List.mem_cons_self _ _)
      simpa using this
    · exact ih _ (fun f' hf' => h f' (List.mem_cons_of_mem _ hf')) o ho

/-- One block of the zero-drive scenario, from a state `j` frames into the
stream: the invariant advances by the block length, and every sample written at
a stream position from the 882nd on is 0.46, on every channel. -/
theorem processCall_zeroDriveHalf (stereo : Bool) (n j : ℕ) (s : VT2BBlackProcessor ℝ)
    (hs : ZeroDriveHalf stereo j s) (hm : MixBetweenBlocks j s.smoothedMix) :
    ZeroDriveHalf stereo (j + n)
      (processCall Real.exp Real.rpow s (constantCall stereo 0 100 (1 / 2) n)).1 ∧
    MixBetweenBlocks (j + n)
      (processCall Real.exp Real.rpow s (constantCall stereo 0 100 (1 / 2) n)).1.smoothedMix ∧
    ∀ i, i < n → 881 ≤ j + i →
      (processCall Real.exp Real.rpow s (constantCall stereo 0 100 (1 / 2) n)).2.map
          (fun ch => ch[i]?) =
        List.replicate (if stereo then 2 else 1) (some 0.46) := by
  have hdrive : s.smoothedDrive.setTargetValue 0 = s.smoothedDrive := by
    simp only [SmoothedValue.setTargetValue]
    rw [if_pos hs.2.2.2.1.symm]
  have hmix : MixRamp j (s.smoothedMix.setTargetValue (100 / 100.0)) := by
    have h1 : (100 / 100.0 : ℝ) = 1 := by norm_num
    rw [h1]
    simp only [SmoothedValue.setTargetValue]
    rcases hm with hm | ⟨hj, ht, hst⟩
    · rw [if_pos hm.1.symm]
      exact hm
    · rw [if_neg (by rw [ht]; norm_num), if_neg (by rw [hst]; norm_num)]
      exact ⟨rfl, by show s.smoothedMix.stepsToTarget = 882 - j; rw [hst, hj]⟩
  have hs' : ZeroDriveHalf stereo j
      { s with
        smoothedDrive := s.smoothedDrive.setTargetValue 0
        smoothedMix := s.smoothedMix.setTargetValue (100 / 100.0) } := by
    rw [hdrive]
    exact hs
  obtain ⟨k1, k2, k3⟩ := sampleLoop_zeroDriveHalf stereo n j _ hs' hmix
  cases stereo with
  | false =>
    have hfr : frames 1 [List.replicate n (1 / 2 : ℝ)] =
        List.replicate n (1 / 2, none) := by
      simp [frames]
    simp only [processCall, constantCall, processBlock, hfr, Bool.false_eq_true, if_false,
      clearUnused_same] at k1 k2 k3 ⊢
    refine ⟨k1, Or.inl k2, ?_⟩
    intro i hi hji
    have h3 := k3 i hi hji
    rw [if_neg (by decide : ¬ (1 : ℕ) > 1)]
    simp only [List.set_cons_zero, List.map_cons, List.map_nil, List.getElem?_map, h3,
      Option.map_some', List.replicate_one]
  | true =>
    have hfr : frames 2 [List.replicate n (1 / 2 : ℝ), List.replicate n (1 / 2 : ℝ)] =
        List.replicate n (1 / 2, some (1 / 2)) := by
      simp [frames]
    have hsome := sampleLoop_right_isSome Real.exp Real.rpow
      { s with
        smoothedDrive := s.smoothedDrive.setTargetValue 0
        smoothedMix := s.smoothedMix.setTargetValue (100 / 100.0) }
      (List.replicate n (1 / 2, some (1 / 2)))
      (fun f hf => by rw [List.eq_of_mem_replicate hf]; rfl)
    simp only [processCall, constantCall, processBlock, hfr, if_true,
      clearUnused_same] at k1 k2 k3 ⊢
    refine ⟨k1, Or.inl k2, ?_⟩
    intro i hi hji
    have h3 := k3 i hi hji
    have h4 := filterMap_snd_getElem? _ hsome i
    rw [h3] at h4
    rw [if_pos (by decide : (2 : ℕ) > 1)]
    show _ = [some 0.46, some 0.46]
    simp only [List.set_cons_zero, List.set_cons_succ, List.map_cons, List.map_nil,
      List.getElem?_map, h3, h4, Option.map_some', Option.some_bind]

/-- A fresh processor prepared at 44100 Hz satisfies the invariant of the
zero-drive scenario at frame 0; the ramp length is `floor (0.02 * 44100) = 882`. -/
theorem prepareToPlay_zeroDriveHalf (stereo : Bool) (m : ℕ) :
    ZeroDriveHalf stereo 0 (prepareToPlay init 44100 m) ∧
    MixBetweenBlocks 0 (prepareToPlay init 44100 m).smoothedMix := by
  have hfloor : ⌊(0.02 : ℝ) * 44100⌋₊ = 882 := by
    have h : (0.02 : ℝ) * 44100 = (882 : ℕ) := by norm_num
    rw [h, Nat.floor_natCast]
  refine ⟨⟨rfl, ?_, ?_, rfl, rfl⟩, Or.inr ⟨rfl, rfl, ?_⟩⟩
  · norm_num [prepareToPlay]
  · intro _
    norm_num [prepareToPlay]
  · simp only [prepareToPlay, SmoothedValue.reset, SmoothedValue.setCurrentAndTargetValue]
    exact hfloor

/-- Any sequence of blocks of the zero-drive scenario keeps its invariant. -/
theorem runBlocks_zeroDriveHalf (stereo : Bool) (pre : List ℕ) (j : ℕ)
    (s : VT2BBlackProcessor ℝ) (hs : ZeroDriveHalf stereo j s)
    (hm : MixBetweenBlocks j s.smoothedMix) :
    ZeroDriveHalf stereo (j + pre.sum)
      (runBlocks Real.exp Real.rpow s (pre.map (constantCall stereo 0 100 (1 / 2)))) ∧
    MixBetweenBlocks (j + pre.sum)
      (runBlocks Real.exp Real.rpow s
        (pre.map (constantCall stereo 0 100 (1 / 2)))).smoothedMix := by
  induction pre generalizing j s with
  | nil => exact ⟨hs, hm⟩
  | cons n pre ih =>
    obtain ⟨h1, h2, _⟩ := processCall_zeroDriveHalf stereo n j s hs hm
    have h := ih (j + n) _ h1 h2
    simp only [List.map_cons, List.sum_cons, runBlocks]
    rw [show j + (n + pre.sum) = j + n + pre.sum by omega]
    exact h

/-! ## C2: the zero-drive end-to-end scenario -/

/-- C2, counterexample: after `prepareToPlay` at 44100 Hz, with Drive 0 and
Mix 100, one mono block of 1000 samples all equal to 0.5: the sample written at
index 999, long after the 882-sample smoothing ramp, is 0.46 and not 0.5. -/
theorem C2_counterexample :
    (processBlock Real.exp Real.rpow (prepareToPlay init 44100 1000) 1 1 0 100
      [List.replicate 1000 (1 / 2)]).2.map (fun ch => ch[999]?) = [some (0.46 : ℝ)] ∧
    (processBlock Real.exp Real.rpow (prepareToPlay init 44100 1000) 1 1 0 100
      [List.replicate 1000 (1 / 2)]).2.map (fun ch => ch[999]?) ≠ [some (0.5 : ℝ)] := by
  obtain ⟨h0, hm0⟩ := prepareToPlay_zeroDriveHalf false 1000
  have h := (processCall_zeroDriveHalf false 1000 0 _ h0 hm0).2.2 999 (by norm_num)
    (by norm_num)
  have h' : (processBlock Real.exp Real.rpow (prepareToPlay init 44100 1000) 1 1 0 100
      [List.replicate 1000 (1 / 2)]).2.map (fun ch => ch[999]?) = [some (0.46 : ℝ)] := h
  refine ⟨h', ?_⟩
  rw [h']
  norm_num

/-- C2, amended: after `prepareToPlay` at 44100 Hz on a fresh processor, with
Drive 0 and Mix 100 held constant and every input sample equal to 0.5, mono or
stereo and for any cut of the stream into blocks, once the 20 ms smoothing has
settled (from the 882nd sample of the stream on) every output sample written by
`processBlock` equals 0.46, that is 0.5 * (1 - 0.08): the envelope has passed
threshold plus knee and the transient shaper applies its minimum amount. -/
theorem C2_zero_drive_settled_output (stereo : Bool) (m : ℕ) (pre : List ℕ) (n i : ℕ)
    (h1 : 881 ≤ pre.sum + i) (h2 : i < n) :
    (processCall Real.exp Real.rpow
      (runBlocks Real.exp Real.rpow (prepareToPlay init 44100 m)
        (pre.map (constantCall stereo 0 100 (1 / 2))))
      (constantCall stereo 0 100 (1 / 2) n)).2.map (fun ch => ch[i]?) =
      List.replicate (if stereo then 2 else 1) (some 0.46) := by
  obtain ⟨h0, hm0⟩ := prepareToPlay_zeroDriveHalf stereo m
  obtain ⟨hs, hm⟩ := runBlocks_zeroDriveHalf stereo pre 0 _ h0 hm0
  exact (processCall_zeroDriveHalf stereo n (0 + pre.sum) _ hs hm).2.2 i h2 (by omega)

/-- Witness of C2: stereo, two blocks of 512 samples processed, first sample of the
third block (stream index 1024). -/
theorem C2_zero_drive_settled_output_witness :
    881 ≤ [512, 512].sum + 0 ∧ 0 < 512 ∧
    (processCall Real.exp Real.rpow
      (runBlocks Real.exp Real.rpow (prepareToPlay init 44100 512)
        ([512, 512].map (constantCall true 0 100 (1 / 2))))
      (constantCall true 0 100 (1 / 2) 512)).2.map (fun ch => ch[0]?) =
      [some (0.46 : ℝ), some (0.46 : ℝ)] :=
  ⟨by decide, by decide,
    C2_zero_drive_settled_output true 512 [512, 512] 512 0 (by decide) (by decide)⟩

/-! ## Witnesses of C6 and C7 -/

/-- Witness of C6 at 44100 Hz: prepare a fresh processor and run one stereo block
of three samples `-1` at Drive 10, Mix 100. -/
theorem C6_envelope_invariant_witness :
    (0 : ℝ) < 44100 ∧
    0 ≤ (runBlocks Real.exp Real.rpow (prepareToPlay init 44100 512)
      [constantCall true 10 100 (-1) 3]).envelopeL ∧
    0 ≤ (runBlocks Real.exp Real.rpow (prepareToPlay init 44100 512)
      [constantCall true 10 100 (-1) 3]).envelopeR :=
  ⟨by norm_num,
    (C6_envelope_invariant 44100 (by norm_num)).2.2.2.2 init 512
      [constantCall true 10 100 (-1) 3]⟩

/-- Witness of C7: with the mix smoother at rest at 0 a fresh processor writes the
dry frame; with the mix smoother at rest at 1 it writes the wet sample. -/
theorem C7_mix_boundary_witness :
    (processSample Real.exp Real.rpow init (1 / 2) (some (1 / 4))).2 =
      (1 / 2, some (1 / 4)) ∧
    (processSample Real.exp Real.rpow
      { (init : VT2BBlackProcessor ℝ) with
        smoothedMix := SmoothedValue.init.setCurrentAndTargetValue 1 } (1 / 2) none).2.1 =
      (wetChannel Real.exp Real.rpow 44100 (1 / 2) 0 0).1 := by
  constructor
  · have h := (C7_mix_boundary init (1 / 2) (some (1 / 4))).1
      (by simp [init, SmoothedValue.init, SmoothedValue.getNextValue])
    exact Prod.ext h.1 h.2
  · have h := (C7_mix_boundary
      { (init : VT2BBlackProcessor ℝ) with
        smoothedMix := SmoothedValue.init.setCurrentAndTargetValue 1 } (1 / 2) none).2
      (by simp [SmoothedValue.init, SmoothedValue.setCurrentAndTargetValue,
        SmoothedValue.getNextValue])
    rw [h.1]
    norm_num [init, SmoothedValue.init, SmoothedValue.getNextValue]

/-! ## C14: the whole chain at zero drive -/

/-- One channel of the loop body at smoothed drive 0 and smoothed mix `m`: the
sample written is `x * (1 - m * r)` with `r` the transient reduction at drive 0,
which lies in `[0, 0.08]` and is 0 exactly when the updated envelope is at most
0.2. -/
theorem zero_drive_channel (sr x e m : ℝ) :
    x * (1 - m) + (wetChannel Real.exp Real.rpow sr x e 0).1 * m =
      x * (1 - m * transientReduction (envelopeFollower Real.exp sr x e) 0) ∧
    0 ≤ transientReduction (envelopeFollower Real.exp sr x e) 0 ∧
    transientReduction (envelopeFollower Real.exp sr x e) 0 ≤ 0.08 ∧
    (transientReduction (envelopeFollower Real.exp sr x e) 0 = 0 ↔
      envelopeFollower Real.exp sr x e ≤ 0.2) := by
  have hb := transientReduction_bounds (envelopeFollower Real.exp sr x e) 0 (le_refl 0)
  refine ⟨?_, hb.1, by linarith [hb.2], ?_⟩
  · rw [wetChannel_zero_drive]
    ring
  · constructor
    · intro h0
      by_contra hgt
      have := transientReduction_pos _ 0 (le_refl 0) (not_le.mp hgt)
      linarith
    · intro hle
      rw [transientReduction_eq, if_neg (not_lt.mpr hle)]

/-- C14: when the smoothed drive pulled for a sample is 0, the loop body writes
`x * (1 - m * r)` on each channel with an input, where `m` is the smoothed mix and
`r` the transient reduction of that channel; `0 ≤ r ≤ 0.08`; `r = 0` if and only
if the envelope after its update for this sample is at most 0.2, and then the
sample written is `x` exactly.  (The sample written equals `x` exactly if and only
if `x = 0`, `m = 0` or that envelope is at most 0.2.)  This holds for every mix
value and every sample rate. -/
theorem C14_zero_drive_chain (p : VT2BBlackProcessor ℝ) (dryL : ℝ) (dryR : Option ℝ)
    (hd : p.smoothedDrive.getNextValue.1 = 0) :
    (processSample Real.exp Real.rpow p dryL dryR).1.envelopeL =
      envelopeFollower Real.exp p.currentSampleRate dryL p.envelopeL ∧
    (processSample Real.exp Real.rpow p dryL dryR).2.1 =
      dryL * (1 - p.smoothedMix.getNextValue.1 *
        transientReduction (processSample Real.exp Real.rpow p dryL dryR).1.envelopeL 0) ∧
    0 ≤ transientReduction (processSample Real.exp Real.rpow p dryL dryR).1.envelopeL 0 ∧
    transientReduction (processSample Real.exp Real.rpow p dryL dryR).1.envelopeL 0 ≤ 0.08 ∧
    (transientReduction (processSample Real.exp Real.rpow p dryL dryR).1.envelopeL 0 = 0 ↔
      (processSample Real.exp Real.rpow p dryL dryR).1.envelopeL ≤ 0.2) ∧
    ((processSample Real.exp Real.rpow p dryL dryR).1.envelopeL ≤ 0.2 →
      (processSample Real.exp Real.rpow p dryL dryR).2.1 = dryL) ∧
    ((processSample Real.exp Real.rpow p dryL dryR).2.1 = dryL ↔
      (dryL = 0 ∨ p.smoothedMix.getNextValue.1 = 0 ∨
        (processSample Real.exp Real.rpow p dryL dryR).1.envelopeL ≤ 0.2)) ∧
    (∀ y, dryR = some y →
      (processSample Real.exp Real.rpow p dryL dryR).1.envelopeR =
        envelopeFollower Real.exp p.currentSampleRate y p.envelopeR ∧
      (processSample Real.exp Real.rpow p dryL dryR).2.2 =
        some (y * (1 - p.smoothedMix.getNextValue.1 *
          transientReduction (processSample Real.exp Real.rpow p dryL dryR).1.envelopeR 0)) ∧
      0 ≤ transientReduction (processSample Real.exp Real.rpow p dryL dryR).1.envelopeR 0 ∧
      transientReduction (processSample Real.exp Real.rpow p dryL dryR).1.envelopeR 0 ≤ 0.08 ∧
      (transientReduction (processSample Real.exp Real.rpow p dryL dryR).1.envelopeR 0 = 0 ↔
        (processSample Real.exp Real.rpow p dryL dryR).1.envelopeR ≤ 0.2)) := by
  have hL : (processSample Real.exp Real.rpow p dryL dryR).1.envelopeL =
      envelopeFollower Real.exp p.currentSampleRate dryL p.envelopeL := by
    rw [processSample_envelopeL, hd, wetChannel_zero_drive]
  obtain ⟨c1, c2, c3, c4⟩ := zero_drive_channel p.currentSampleRate dryL p.envelopeL
    p.smoothedMix.getNextValue.1
  have hout : (processSample Real.exp Real.rpow p dryL dryR).2.1 =
      dryL * (1 - p.smoothedMix.getNextValue.1 *
        transientReduction (envelopeFollower Real.exp p.currentSampleRate dryL p.envelopeL) 0) := by
    rw [processSample_outL, hd]
    exact c1
  rw [hL]
  refine ⟨rfl, hout, c2, c3, c4, ?_, ?_, ?_⟩
  · intro hle
    rw [hout, c4.mpr hle]
    ring
  · rw [hout]
    constructor
    · intro h
      have h0 : dryL * (p.smoothedMix.getNextValue.1 *
          transientReduction (envelopeFollower Real.exp p.currentSampleRate dryL p.envelopeL) 0)
          = 0 := by linarith
      rcases mul_eq_zero.mp h0 with h1 | h1
      · exact Or.inl h1
      · rcases mul_eq_zero.mp h1 with h2 | h2
        · exact Or.inr (Or.inl h2)
        · exact Or.inr (Or.inr (c4.mp h2))
    · rintro (h | h | h)
      · rw [h, zero_mul]
      · rw [h]
        ring
      · rw [c4.mpr h]
        ring
  · intro y hy
    subst hy
    have hR : (processSample Real.exp Real.rpow p dryL (some y)).1.envelopeR =
        envelopeFollower Real.exp p.currentSampleRate y p.envelopeR := by
      rw [processSample_envelopeR, hd]
      show (wetChannel Real.exp Real.rpow p.currentSampleRate y p.envelopeR 0).2 = _
      rw [wetChannel_zero_drive]
    obtain ⟨d1, d2, d3, d4⟩ := zero_drive_channel p.currentSampleRate y p.envelopeR
      p.smoothedMix.getNextValue.1
    rw [hR]
    refine ⟨rfl, ?_, d2, d3, d4⟩
    rw [processSample_outR, hd]
    simp only [Option.map_some']
    rw [d1]

/-! ## One input channel, two output channels -/

/-- With one input channel and at least two output channels, a layout that
`isBusesLayoutSupported` does not accept, `processBlock` as written stores the
processed samples to channel 0 and leaves channel 1 cleared: `wetR = wetL` is
computed and stored nowhere. -/
theorem processBlock_one_input (exp : ℝ → ℝ) (pow : ℝ → ℝ → ℝ) (p : VT2BBlackProcessor ℝ)
    (numOut : ℕ) (d m : ℝ) (L R : List ℝ) (rest : List (List ℝ)) (h : 2 ≤ numOut) :
    (processBlock exp pow p 1 numOut d m (L :: R :: rest)).2[0]? =
      some ((sampleLoop exp pow
        { p with
          smoothedDrive := p.smoothedDrive.setTargetValue d
          smoothedMix := p.smoothedMix.setTargetValue (m / 100.0) }
        (L.map (fun l => (l, none)))).2.map (fun o => o.1)) ∧
    (processBlock exp pow p 1 numOut d m (L :: R :: rest)).2[1]? =
      some (R.map (fun _ => 0)) := by
  have h1 : ¬ (1 : ℕ) > 1 := by decide
  have h2 : (1 : ℕ) ≤ 0 + 1 ∧ 0 + 1 < numOut := ⟨le_refl _, by omega⟩
  have h3 : ¬ ((1 : ℕ) ≤ 0 ∧ 0 < numOut) := by omega
  simp only [processBlock, clearUnused, frames, List.mapIdx_cons, if_neg h1, if_pos h2,
    if_neg h3, List.getD_cons_zero, List.set_cons_zero, List.getElem?_cons_zero,
    List.getElem?_cons_succ]
  exact ⟨trivial, trivial⟩

/-! ## Auxiliary lemmas for settled parameters -/

/-- A smoother whose target already is the new value ignores `setTargetValue`. -/
theorem setTargetValue_same (m : SmoothedValue ℝ) (v : ℝ) (h : m.target = v) :
    m.setTargetValue v = m := by
  simp only [SmoothedValue.setTargetValue]
  rw [if_pos h.symm]

/-- With settled parameters the loop body pulls the targets and leaves the
smoothers and the sample rate as they are. -/
theorem processSample_settled (exp : ℝ → ℝ) (pow : ℝ → ℝ → ℝ) (d m : ℝ)
    (s : VT2BBlackProcessor ℝ) (x : ℝ) (r : Option ℝ) (hs : SettledAt d m s) :
    s.smoothedDrive.getNextValue.1 = d ∧ s.smoothedMix.getNextValue.1 = m ∧
    SettledAt d m (processSample exp pow s x r).1 ∧
    (processSample exp pow s x r).1.currentSampleRate = s.currentSampleRate := by
  obtain ⟨hdt, hdc, hmt, hmc⟩ := hs
  have hd := getNextValue_at_rest _ hdc
  have hm := getNextValue_at_rest _ hmc
  refine ⟨by rw [hd, hdt], by rw [hm, hmt], ⟨?_, ?_, ?_, ?_⟩, processSample_sampleRate _ _ _ _ _⟩
  · rw [(processSample_smoothers _ _ _ _ _).1, hd]
    exact hdt
  · rw [(processSample_smoothers _ _ _ _ _).1, hd]
    exact hdc
  · rw [(processSample_smoothers _ _ _ _ _).2, hm]
    exact hmt
  · rw [(processSample_smoothers _ _ _ _ _).2, hm]
    exact hmc

/-- With settled parameters the sample loop leaves the smoothers and the sample
rate as they are. -/
theorem sampleLoop_settled (exp : ℝ → ℝ) (pow : ℝ → ℝ → ℝ) (d m : ℝ)
    (s : VT2BBlackProcessor ℝ) (fs : List (ℝ × Option ℝ)) (hs : SettledAt d m s) :
    SettledAt d m (sampleLoop exp pow s fs).1 ∧
    (sampleLoop exp pow s fs).1.currentSampleRate = s.currentSampleRate := by
  induction fs generalizing s with
  | nil => exact ⟨hs, rfl⟩
  | cons f fs ih =>
    obtain ⟨l, r⟩ := f
    obtain ⟨_, _, h1, h2⟩ := processSample_settled exp pow d m s l r hs
    obtain ⟨k1, k2⟩ := ih _ h1
    exact ⟨k1, k2.trans h2⟩

/-- With Drive settled at `d` and Mix settled at 100 percent, `processBlock` called
with the parameters `d` and 100 starts its sample loop from the state it was
given. -/
theorem setTargets_settled (d : ℝ) (s : VT2BBlackProcessor ℝ) (hs : SettledAt d 1 s) :
    ({ s with
      smoothedDrive := s.smoothedDrive.setTargetValue d
      smoothedMix := s.smoothedMix.setTargetValue (100 / 100.0) } : VT2BBlackProcessor ℝ) = s := by
  have h1 : (100 / 100.0 : ℝ) = 1 := by norm_num
  rw [h1, setTargetValue_same _ _ hs.1, setTargetValue_same _ _ hs.2.2.1]

/-- Closed form of the signal fed to the transient shaper at Drive 10. -/
theorem max_drive_shaper_input (x : ℝ) :
    processSaturation Real.rpow ((1 + 10 / 10 * 1.5) * x) 10 +
        processHarmonics ((1 + 10 / 10 * 1.5) * x) 10 =
      2.5 * x / (1 + 3 * |2.5 * x| ^ (2.5 : ℝ)) +
        (0.4 * (2.5 * x) * |2.5 * x| + 0.25 * (2.5 * x) ^ 3) := by
  rw [processSaturation_eq, processHarmonics_eq]
  norm_num

/-- At Drive 10 the signal fed to the transient shaper has magnitude at most 5.6
for a dry sample of magnitude at most 0.8. -/
theorem max_drive_shaper_input_bound (x : ℝ) (hx : |x| ≤ 0.8) :
    |processSaturation Real.rpow ((1 + 10 / 10 * 1.5) * x) 10 +
        processHarmonics ((1 + 10 / 10 * 1.5) * x) 10| ≤ 5.6 := by
  rw [max_drive_shaper_input]
  have hu : |2.5 * x| ≤ 2 := by
    rw [abs_mul, abs_of_pos (by norm_num : (0 : ℝ) < 2.5)]
    linarith
  have hu0 : 0 ≤ |2.5 * x| := abs_nonneg _
  have hp : 0 ≤ |2.5 * x| ^ (2.5 : ℝ) := Real.rpow_nonneg hu0 _
  have hden : 1 ≤ 1 + 3 * |2.5 * x| ^ (2.5 : ℝ) := by linarith
  have hsat : |2.5 * x / (1 + 3 * |2.5 * x| ^ (2.5 : ℝ))| ≤ 2 := by
    rw [abs_div, abs_of_pos (by linarith : 0 < 1 + 3 * |2.5 * x| ^ (2.5 : ℝ))]
    exact le_trans (div_le_self hu0 hden) hu
  have h2 : abs (0.4 * (2.5 * x) * |2.5 * x|) ≤ 1.6 := by
    rw [abs_mul, abs_mul, abs_abs, abs_of_pos (by norm_num : (0 : ℝ) < 0.4)]
    nlinarith
  have h3 : |0.25 * (2.5 * x) ^ 3| ≤ 2 := by
    rw [abs_mul, abs_pow, abs_of_pos (by norm_num : (0 : ℝ) < 0.25)]
    have : |2.5 * x| ^ 3 ≤ 2 ^ 3 := pow_le_pow_left₀ hu0 hu 3
    linarith
  have h23 := abs_add (0.4 * (2.5 * x) * |2.5 * x|) (0.25 * (2.5 * x) ^ 3)
  have hall := abs_add (2.5 * x / (1 + 3 * |2.5 * x| ^ (2.5 : ℝ)))
    (0.4 * (2.5 * x) * |2.5 * x| + 0.25 * (2.5 * x) ^ 3)
  linarith

/-- At Drive 10 the wet sample has magnitude at most 28/9 for a dry sample of
magnitude at most 0.8, whatever the envelope and the sample rate: the transient
shaper only scales by a factor in `[0.5, 1]` and the makeup gain is 5/9. -/
theorem max_drive_wet_bound (sr x e : ℝ) (hx : |x| ≤ 0.8) :
    |(wetChannel Real.exp Real.rpow sr x e 10).1| ≤ 28 / 9 := by
  rw [wetChannel_fst, calculateMakeupGain_eq]
  have hT := max_drive_shaper_input_bound x hx
  have hb := transientReduction_bounds
    (envelopeFollower Real.exp sr (processSaturation Real.rpow ((1 + 10 / 10 * 1.5) * x) 10 +
      processHarmonics ((1 + 10 / 10 * 1.5) * x) 10) e) 10 (by norm_num)
  simp only [processTransient]
  rw [abs_mul, abs_mul]
  have hg : |(1 : ℝ) / (1 + 10 / 10 * 0.8)| = 5 / 9 := by
    rw [abs_of_pos (by norm_num)]
    norm_num
  have hf : |1 - transientReduction
      (envelopeFollower Real.exp sr (processSaturation Real.rpow ((1 + 10 / 10 * 1.5) * x) 10 +
        processHarmonics ((1 + 10 / 10 * 1.5) * x) 10) e) 10| ≤ 1 := by
    rw [abs_le]
    constructor <;> linarith [hb.1, hb.2]
  rw [hg]
  have hprod := mul_le_mul hT hf (abs_nonneg _) (by norm_num : (0 : ℝ) ≤ 5.6)
  linarith

/-! ## Auxiliary lemmas: silence, and reaching settled parameters -/

/-- A zero dry sample gives a zero wet sample at every drive; the envelope is
updated towards 0. -/
theorem wetChannel_zero_input (sr e d : ℝ) :
    wetChannel Real.exp Real.rpow sr 0 e d = (0, envelopeFollower Real.exp sr 0 e) := by
  have hin : processSaturation Real.rpow ((1 + d / 10 * 1.5) * 0) d +
      processHarmonics ((1 + d / 10 * 1.5) * 0) d = 0 := by
    rw [processSaturation_eq, processHarmonics_eq]
    norm_num
  apply Prod.ext
  · rw [wetChannel_fst, hin]
    simp only [processTransient]
    ring
  · rw [wetChannel_snd, hin]

/-- An envelope of 0 fed a zero sample stays 0. -/
theorem envelopeFollower_zero_zero (sr : ℝ) : envelopeFollower Real.exp sr 0 0 = 0 := by
  simp [envelopeFollower]

/-- A positive envelope fed a zero sample decays but stays positive. -/
theorem envelopeFollower_zero_decay (sr e : ℝ) (hsr : 0 < sr) (he : 0 < e) :
    0 < envelopeFollower Real.exp sr 0 e ∧ envelopeFollower Real.exp sr 0 e < e := by
  obtain ⟨hr0, hr1⟩ := releaseCoeff_bounds sr hsr
  simp only [envelopeFollower, abs_zero]
  rw [if_neg (not_lt.mpr he.le)]
  constructor <;> nlinarith

/-- One pull of a smoother on its ramp advances the ramp by one frame. -/
theorem getNextValue_rampTo (t : ℝ) (j : ℕ) (m : SmoothedValue ℝ) (h : RampTo t j m) :
    RampTo t (j + 1) m.getNextValue.2 := by
  obtain ⟨ht, hc⟩ := h
  simp only [RampTo, SmoothedValue.getNextValue]
  by_cases h0 : m.countdown = 0
  · rw [if_pos h0]
    exact ⟨ht, by show m.countdown = 882 - (j + 1); omega⟩
  · rw [if_neg h0]
    by_cases h1 : m.countdown - 1 = 0
    · rw [if_pos h1]
      exact ⟨ht, by show 0 = 882 - (j + 1); omega⟩
    · rw [if_neg h1]
      exact ⟨ht, by show m.countdown - 1 = 882 - (j + 1); omega⟩

/-- A mono block of silence while both smoothers ramp: the envelopes stay 0 and
the ramps advance by the block length. -/
theorem sampleLoop_silentRamp (td tm : ℝ) (n j : ℕ) (s : VT2BBlackProcessor ℝ)
    (hL : s.envelopeL = 0) (hd : RampTo td j s.smoothedDrive)
    (hm : RampTo tm j s.smoothedMix) :
    (sampleLoop Real.exp Real.rpow s (List.replicate n (0, none))).1.currentSampleRate =
      s.currentSampleRate ∧
    (sampleLoop Real.exp Real.rpow s (List.replicate n (0, none))).1.envelopeL = 0 ∧
    (sampleLoop Real.exp Real.rpow s (List.replicate n (0, none))).1.envelopeR = s.envelopeR ∧
    RampTo td (j + n)
      (sampleLoop Real.exp Real.rpow s (List.replicate n (0, none))).1.smoothedDrive ∧
    RampTo tm (j + n)
      (sampleLoop Real.exp Real.rpow s (List.replicate n (0, none))).1.smoothedMix := by
  induction n generalizing j s with
  | zero => exact ⟨rfl, hL, rfl, hd, hm⟩
  | succ n ih =>
    have h1 : (processSample Real.exp Real.rpow s 0 none).1.envelopeL = 0 := by
      rw [processSample_envelopeL, hL, wetChannel_zero_input, envelopeFollower_zero_zero]
    have h2 : RampTo td (j + 1) (processSample Real.exp Real.rpow s 0 none).1.smoothedDrive := by
      rw [(processSample_smoothers _ _ _ _ _).1]
      exact getNextValue_rampTo td j _ hd
    have h3 : RampTo tm (j + 1) (processSample Real.exp Real.rpow s 0 none).1.smoothedMix := by
      rw [(processSample_smoothers _ _ _ _ _).2]
      exact getNextValue_rampTo tm j _ hm
    obtain ⟨k1, k2, k3, k4, k5⟩ := ih (j + 1) _ h1 h2 h3
    simp only [List.replicate_succ, sampleLoop]
    rw [show j + (n + 1) = j + 1 + n by omega]
    refine ⟨?_, k2, ?_, k4, k5⟩
    · rw [k1, processSample_sampleRate]
    · rw [k3, processSample_envelopeR]

/-- A fresh processor prepared at 44100 Hz that processes one mono block of at
least 882 samples of silence with Drive 10 and Mix 100 ends with settled
parameters (smoothed drive 10, smoothed mix 1) and both envelopes at 0. -/
theorem silentBlock_settles (n : ℕ) (hn : 882 ≤ n) :
    (processCall Real.exp Real.rpow (prepareToPlay init 44100 512)
      (constantCall false 10 100 0 n)).1.currentSampleRate = 44100 ∧
    SettledAt 10 1 (processCall Real.exp Real.rpow (prepareToPlay init 44100 512)
      (constantCall false 10 100 0 n)).1 ∧
    (processCall Real.exp Real.rpow (prepareToPlay init 44100 512)
      (constantCall false 10 100 0 n)).1.envelopeL = 0 ∧
    (processCall Real.exp Real.rpow (prepareToPlay init 44100 512)
      (constantCall false 10 100 0 n)).1.envelopeR = 0 := by
  have hfloor : ⌊(0.02 : ℝ) * 44100⌋₊ = 882 := by
    have h : (0.02 : ℝ) * 44100 = (882 : ℕ) := by norm_num
    rw [h, Nat.floor_natCast]
  have hst : ∀ v : ℝ, v ≠ 0 →
      RampTo v 0 (((SmoothedValue.init : SmoothedValue ℝ).reset 44100 0.02).setTargetValue v) := by
    intro v hv
    simp only [SmoothedValue.setTargetValue, SmoothedValue.reset,
      SmoothedValue.setCurrentAndTargetValue, SmoothedValue.init, hfloor]
    rw [if_neg hv, if_neg (by norm_num)]
    exact ⟨rfl, rfl⟩
  have hd := hst 10 (by norm_num)
  have hm : RampTo 1 0
      (((SmoothedValue.init : SmoothedValue ℝ).reset 44100 0.02).setTargetValue (100 / 100.0)) := by
    have h1 : (100 / 100.0 : ℝ) = 1 := by norm_num
    rw [h1]
    exact hst 1 (by norm_num)
  have hfr : frames 1 [List.replicate n (0 : ℝ)] = List.replicate n (0, none) := by
    simp [frames]
  obtain ⟨k1, k2, k3, k4, k5⟩ := sampleLoop_silentRamp 10 1 n 0
    { (prepareToPlay (init : VT2BBlackProcessor ℝ) 44100 512) with
      smoothedDrive := (prepareToPlay (init : VT2BBlackProcessor ℝ) 44100
        512).smoothedDrive.setTargetValue 10
      smoothedMix := (prepareToPlay (init : VT2BBlackProcessor ℝ) 44100
        512).smoothedMix.setTargetValue (100 / 100.0) }
    (by norm_num [prepareToPlay]) hd hm
  simp only [processCall, constantCall, Bool.false_eq_true, if_false,
    processBlock, clearUnused_same, hfr]
  refine ⟨?_, ⟨k4.1, ?_, k5.1, ?_⟩, k2, ?_⟩
  · rw [k1]
    rfl
  · rw [k4.2]
    omega
  · rw [k5.2]
    omega
  · rw [k3]
    norm_num [prepareToPlay]

/-- The processor of the max-drive scenarios, over the reals. -/
theorem settledMaxDrive_eq :
    settledMaxDrive Real.exp Real.rpow =
      (processCall Real.exp Real.rpow (prepareToPlay init 44100 512)
        (constantCall false 10 100 0 882)).1 := by
  unfold settledMaxDrive
  rfl

/-- The processor of the max-drive scenarios has settled parameters (smoothed
drive 10, smoothed mix 1), the sample rate 44100 and both envelopes at 0. -/
theorem settledMaxDrive_settled :
    (settledMaxDrive Real.exp Real.rpow).currentSampleRate = 44100 ∧
    SettledAt 10 1 (settledMaxDrive Real.exp Real.rpow) ∧
    (settledMaxDrive Real.exp Real.rpow).envelopeL = 0 ∧
    (settledMaxDrive Real.exp Real.rpow).envelopeR = 0 := by
  rw [settledMaxDrive_eq]
  exact silentBlock_settles 882 (Nat.le_refl 882)

/-! ## Auxiliary lemmas for the max-drive scenarios -/

/-- On `(0, 2]` the max-drive curve `u / (1 + 3 u^2.5) + 0.4 u^2 + 0.25 u^3` lies
strictly above `0.72 u`. -/
theorem max_drive_curve_gt (u : ℝ) (hu0 : 0 < u) (hu2 : u ≤ 2) :
    0.72 * u < u / (1 + 3 * u ^ (2.5 : ℝ)) + (0.4 * u * u + 0.25 * u ^ 3) := by
  have hp : 0 ≤ u ^ (2.5 : ℝ) := Real.rpow_nonneg hu0.le _
  have key : ∀ q : ℝ, u ^ (2.5 : ℝ) ≤ q →
      (0.72 - 0.4 * u - 0.25 * u ^ 2) * (1 + 3 * q) < 1 →
      0.72 * u < u / (1 + 3 * u ^ (2.5 : ℝ)) + (0.4 * u * u + 0.25 * u ^ 3) := by
    intro q hq hlt
    have hden : 0 < 1 + 3 * u ^ (2.5 : ℝ) := by linarith
    have hdq : 0 < 1 + 3 * q := by linarith
    have hle : u / (1 + 3 * q) ≤ u / (1 + 3 * u ^ (2.5 : ℝ)) :=
      div_le_div_of_nonneg_left hu0.le hden (by linarith)
    have h1 : (0.72 - 0.4 * u - 0.25 * u ^ 2) * u < u / (1 + 3 * q) := by
      rw [lt_div_iff₀ hdq]
      nlinarith
    nlinarith
  rcases le_total u 1 with h1 | h1
  · have hq : u ^ (2.5 : ℝ) ≤ u ^ 2 := by
      have h := Real.rpow_le_rpow_of_exponent_ge hu0 h1 (by norm_num : (2 : ℝ) ≤ 2.5)
      rwa [Real.rpow_two] at h
    apply key _ hq
    nlinarith [sq_nonneg (u - 0.6), sq_nonneg (u ^ 2 - 0.36),
      mul_nonneg hu0.le (sub_nonneg.mpr h1),
      mul_nonneg (mul_nonneg hu0.le hu0.le) (sub_nonneg.mpr h1), sq_nonneg (u * (u - 0.6)),
      pow_pos hu0 3]
  · have hq : u ^ (2.5 : ℝ) ≤ u ^ 3 := by
      have h := Real.rpow_le_rpow_of_exponent_le h1 (by norm_num : (2.5 : ℝ) ≤ 3)
      have h3 : u ^ (3 : ℝ) = u ^ 3 := by
        have h' := Real.rpow_natCast u 3
        simpa using h'
      rwa [h3] at h
    apply key _ hq
    have h3 : 0 ≤ u ^ 3 * (u - 1) := mul_nonneg (by positivity) (by linarith)
    have h4 : 0 ≤ u ^ 3 * (u ^ 2 - 1) := mul_nonneg (by positivity) (by nlinarith)
    have h5 : 0 ≤ u ^ 2 * (2 - u) := mul_nonneg (by positivity) (by linarith)
    have h6 : 0 ≤ u * (2 - u) := mul_nonneg (by positivity) (by linarith)
    nlinarith

/-- At 44100 Hz the attack coefficient `1 - exp (-1 / 44.1)` is at most
`1 / 44.1`. -/
theorem attackCoeff_le : attackCoeff Real.exp 44100 ≤ 10 / 441 := by
  simp only [attackCoeff, kEnvelopeAttack]
  have h := Real.add_one_le_exp (-1 / (44100 * 0.001) : ℝ)
  have h' : (-1 / (44100 * 0.001) : ℝ) = -(10 / 441) := by norm_num
  rw [h'] at h ⊢
  linarith

/-- Drive 10, 44100 Hz, envelope 0 and a dry sample `x` in `(0, 0.8]`: the
updated envelope stays in `(0, 0.2]`, so there is no transient reduction, and
the wet sample is strictly larger than `x`. -/
theorem max_drive_first_sample (x : ℝ) (hx0 : 0 < x) (hx1 : x ≤ 0.8) :
    x < (wetChannel Real.exp Real.rpow 44100 x 0 10).1 ∧
    0 < (wetChannel Real.exp Real.rpow 44100 x 0 10).2 ∧
    (wetChannel Real.exp Real.rpow 44100 x 0 10).2 ≤ 0.2 := by
  have habs : |x| ≤ 0.8 := by
    rw [abs_of_pos hx0]
    exact hx1
  have hTle := max_drive_shaper_input_bound x habs
  have hTgt : 1.8 * x < processSaturation Real.rpow ((1 + 10 / 10 * 1.5) * x) 10 +
      processHarmonics ((1 + 10 / 10 * 1.5) * x) 10 := by
    rw [max_drive_shaper_input, abs_of_pos (by positivity : (0 : ℝ) < 2.5 * x)]
    have h := max_drive_curve_gt (2.5 * x) (by positivity) (by linarith)
    linarith
  rw [wetChannel_fst, wetChannel_snd]
  generalize processSaturation Real.rpow ((1 + 10 / 10 * 1.5) * x) 10 +
      processHarmonics ((1 + 10 / 10 * 1.5) * x) 10 = T at hTle hTgt ⊢
  have hTpos : 0 < T := by linarith
  have hTle' : T ≤ 5.6 := (abs_le.mp hTle).2
  obtain ⟨ha0, _⟩ := attackCoeff_bounds 44100 (by norm_num)
  have ha := attackCoeff_le
  have henv : envelopeFollower Real.exp 44100 T 0 = attackCoeff Real.exp 44100 * T := by
    simp only [envelopeFollower]
    rw [abs_of_pos hTpos, if_pos hTpos]
    ring
  have he0 : 0 < attackCoeff Real.exp 44100 * T := mul_pos ha0 hTpos
  have he1 : attackCoeff Real.exp 44100 * T ≤ 0.2 := by nlinarith
  simp only [processTransient]
  rw [henv, transientReduction_eq, if_neg (not_lt.mpr he1), calculateMakeupGain_eq]
  refine ⟨?_, he0, he1⟩
  norm_num
  linarith

/-- The sine input starts with the sample 0 followed by `0.8 * sin (2 pi / 44.1)`. -/
theorem sineInput_head (n : ℕ) :
    ∃ rest : List ℝ, sineInput Real.sin Real.pi 0.8 1000 44100 (n + 2) =
      0 :: 0.8 * Real.sin (Real.pi * (20 / 441)) :: rest := by
  refine ⟨(List.range n).map
    (fun k => 0.8 * Real.sin (2 * Real.pi * 1000 * ((k + 2 : ℕ) : ℝ) / 44100)), ?_⟩
  simp only [sineInput, List.range_succ_eq_map, List.map_cons, List.map_map]
  congr 1
  · norm_num
  · congr 1
    congr 2
    push_cast
    ring

/-- The second sample of the sine input lies in `(0, 0.8]`. -/
theorem sineInput_second_pos :
    0 < 0.8 * Real.sin (Real.pi * (20 / 441)) ∧
    0.8 * Real.sin (Real.pi * (20 / 441)) ≤ 0.8 := by
  have hpi := Real.pi_pos
  have hpos : 0 < Real.sin (Real.pi * (20 / 441)) :=
    Real.sin_pos_of_pos_of_lt_pi (by positivity) (by nlinarith)
  have hle := Real.sin_le_one (Real.pi * (20 / 441))
  constructor <;> nlinarith

/-- Every sample of the sine input has magnitude at most 0.8. -/
theorem sineInput_bounded (N : ℕ) :
    ∀ x ∈ sineInput Real.sin Real.pi 0.8 1000 44100 N, |x| ≤ 0.8 := by
  intro x hx
  simp only [sineInput, List.mem_map] at hx
  obtain ⟨k, _, rfl⟩ := hx
  rw [abs_mul, abs_of_pos (by norm_num : (0 : ℝ) < 0.8)]
  have h := Real.abs_sin_le_one (2 * Real.pi * 1000 * (k : ℝ) / 44100)
  linarith

/-- What `processBlock` returns for a mono buffer. -/
theorem processBlock_mono (exp : ℝ → ℝ) (pow : ℝ → ℝ → ℝ) (p : VT2BBlackProcessor ℝ)
    (d m : ℝ) (L : List ℝ) :
    processBlock exp pow p 1 1 d m [L] =
      ((sampleLoop exp pow
          { p with
            smoothedDrive := p.smoothedDrive.setTargetValue d
            smoothedMix := p.smoothedMix.setTargetValue (m / 100.0) }
          (L.map (fun l => (l, none)))).1,
        [(sampleLoop exp pow
          { p with
            smoothedDrive := p.smoothedDrive.setTargetValue d
            smoothedMix := p.smoothedMix.setTargetValue (m / 100.0) }
          (L.map (fun l => (l, none)))).2.map (fun o => o.1)]) := by
  have h1 : ¬ (1 : ℕ) > 1 := by decide
  simp only [processBlock, clearUnused_same, frames, if_neg h1, List.getD_cons_zero,
    List.set_cons_zero]

/-- What `processBlock` returns for a stereo buffer. -/
theorem processBlock_stereo (exp : ℝ → ℝ) (pow : ℝ → ℝ → ℝ) (p : VT2BBlackProcessor ℝ)
    (d m : ℝ) (L R : List ℝ) :
    processBlock exp pow p 2 2 d m [L, R] =
      ((sampleLoop exp pow
          { p with
            smoothedDrive := p.smoothedDrive.setTargetValue d
            smoothedMix := p.smoothedMix.setTargetValue (m / 100.0) }
          (List.zipWith (fun l r => (l, some r)) L R)).1,
        [(sampleLoop exp pow
          { p with
            smoothedDrive := p.smoothedDrive.setTargetValue d
            smoothedMix := p.smoothedMix.setTargetValue (m / 100.0) }
          (List.zipWith (fun l r => (l, some r)) L R)).2.map (fun o => o.1),
         (sampleLoop exp pow
          { p with
            smoothedDrive := p.smoothedDrive.setTargetValue d
            smoothedMix := p.smoothedMix.setTargetValue (m / 100.0) }
          (List.zipWith (fun l r => (l, some r)) L R)).2.filterMap (fun o => o.2)]) := by
  have h1 : (2 : ℕ) > 1 := by decide
  simp only [processBlock, clearUnused_same, frames, if_pos h1, List.getD_cons_zero,
    List.getD_cons_succ, List.set_cons_zero, List.set_cons_succ]

/-- With Drive settled at 10 and Mix at 100 percent, every sample the loop writes
for dry samples of magnitude at most 0.8 has magnitude at most 28/9, whatever
the envelopes and the sample rate. -/
theorem sampleLoop_max_drive_bound (s : VT2BBlackProcessor ℝ) (fs : List (ℝ × Option ℝ))
    (hs : SettledAt 10 1 s)
    (hfs : ∀ f ∈ fs, |f.1| ≤ 0.8 ∧ ∀ y, f.2 = some y → |y| ≤ 0.8) :
    ∀ o ∈ (sampleLoop Real.exp Real.rpow s fs).2,
      |o.1| ≤ 28 / 9 ∧ ∀ y, o.2 = some y → |y| ≤ 28 / 9 := by
  induction fs generalizing s with
  | nil => simp [sampleLoop]
  | cons f fs ih =>
    obtain ⟨l, r⟩ := f
    obtain ⟨hd, hm, hs1, _⟩ := processSample_settled Real.exp Real.rpow 10 1 s l r hs
    obtain ⟨hl, hr⟩ := hfs (l, r) (List.mem_cons_self _ _)
    intro o ho
    simp only [sampleLoop, List.mem_cons] at ho
    rcases ho with ho | ho
    · subst ho
      constructor
      · rw [processSample_outL, hd, hm]
        have h := max_drive_wet_bound s.currentSampleRate l s.envelopeL hl
        have e : l * (1 - 1) + (wetChannel Real.exp Real.rpow s.currentSampleRate l s.envelopeL
            10).1 * 1 = (wetChannel Real.exp Real.rpow s.currentSampleRate l s.envelopeL
            10).1 := by ring
        rw [e]
        exact h
      · intro y hy
        rw [processSample_outR, hd, hm] at hy
        cases r with
        | none => simp at hy
        | some x =>
          simp only [Option.map_some', Option.some.injEq] at hy
          have h := max_drive_wet_bound s.currentSampleRate x s.envelopeR (hr x rfl)
          rw [← hy]
          have e : x * (1 - 1) + (wetChannel Real.exp Real.rpow s.currentSampleRate x
              s.envelopeR 10).1 * 1 = (wetChannel Real.exp Real.rpow s.currentSampleRate x
              s.envelopeR 10).1 := by ring
          rw [e]
          exact h
    · exact ih _ hs1 (fun f' hf' => hfs f' (List.mem_cons_of_mem _ hf')) o ho

/-- Drive settled at 10, Mix at 100 percent, 44100 Hz, envelope 0: after a first
dry sample 0, a second dry sample `x` in `(0, 0.8]` is written back strictly
larger than `x`. -/
theorem sampleLoop_max_drive_second (s : VT2BBlackProcessor ℝ)
    (hsr : s.currentSampleRate = 44100) (hs : SettledAt 10 1 s) (he : s.envelopeL = 0)
    (x : ℝ) (hx0 : 0 < x) (hx1 : x ≤ 0.8) (rest : List (ℝ × Option ℝ)) :
    ∃ y, ((sampleLoop Real.exp Real.rpow s ((0, none) :: (x, none) :: rest)).2.map
        (fun o => o.1))[1]? = some y ∧ x < y := by
  obtain ⟨_, _, hs1, hsr1⟩ := processSample_settled Real.exp Real.rpow 10 1 s 0 none hs
  obtain ⟨hd, hm, _, _⟩ := processSample_settled Real.exp Real.rpow 10 1
    (processSample Real.exp Real.rpow s 0 none).1 x none hs1
  have he1 : (processSample Real.exp Real.rpow s 0 none).1.envelopeL = 0 := by
    rw [processSample_envelopeL, he, wetChannel_zero_input, envelopeFollower_zero_zero]
  refine ⟨(processSample Real.exp Real.rpow (processSample Real.exp Real.rpow s 0 none).1 x
    none).2.1, ?_, ?_⟩
  · simp only [sampleLoop, List.map_cons, List.getElem?_cons_succ, List.getElem?_cons_zero]
  · rw [processSample_outL, hd, hm, hsr1, hsr, he1]
    have h := (max_drive_first_sample x hx0 hx1).1
    linarith

/-! ## C13: the max-drive sine scenario -/

/-- C13: with Drive settled at 10 and Mix settled at 100 percent,
(1) at 44100 Hz and from an envelope of 0, the output for the input
`x_n = 0.8 * sin (2 * pi * 1000 * n / 44100)` differs from the input at sample 1
(it is strictly larger there);
(2) every output sample for that input has magnitude at most `B = 28/9`;
(3) more generally, for every mono input with `|x_n| ≤ 0.8`, of any length,
every output sample has magnitude at most `28/9`, one output sample is written
per input sample, and the parameters stay settled for the next block;
(4) the same bound holds for stereo input.
The bound does not depend on the envelope or the sample rate. -/
theorem C13_max_drive_sine_bounded (s : VT2BBlackProcessor ℝ) (hs : SettledAt 10 1 s) :
    (s.currentSampleRate = 44100 → s.envelopeL = 0 → ∀ N, 2 ≤ N →
      ∃ x y, (sineInput Real.sin Real.pi 0.8 1000 44100 N)[1]? = some x ∧
        ((processBlock Real.exp Real.rpow s 1 1 10 100
          [sineInput Real.sin Real.pi 0.8 1000 44100 N]).2[0]?).bind (fun ch => ch[1]?) =
          some y ∧
        x < y) ∧
    (∀ N, ∀ ch ∈ (processBlock Real.exp Real.rpow s 1 1 10 100
        [sineInput Real.sin Real.pi 0.8 1000 44100 N]).2, ∀ y ∈ ch, |y| ≤ 28 / 9) ∧
    (∀ xs : List ℝ, (∀ x ∈ xs, |x| ≤ 0.8) →
      (∀ ch ∈ (processBlock Real.exp Real.rpow s 1 1 10 100 [xs]).2, ∀ y ∈ ch, |y| ≤ 28 / 9) ∧
      (processBlock Real.exp Real.rpow s 1 1 10 100 [xs]).2.map List.length = [xs.length] ∧
      SettledAt 10 1 (processBlock Real.exp Real.rpow s 1 1 10 100 [xs]).1) ∧
    (∀ xs ys : List ℝ, (∀ x ∈ xs, |x| ≤ 0.8) → (∀ y ∈ ys, |y| ≤ 0.8) →
      (∀ ch ∈ (processBlock Real.exp Real.rpow s 2 2 10 100 [xs, ys]).2,
        ∀ y ∈ ch, |y| ≤ 28 / 9) ∧
      SettledAt 10 1 (processBlock Real.exp Real.rpow s 2 2 10 100 [xs, ys]).1) := by
  have hmono : ∀ xs : List ℝ, (∀ x ∈ xs, |x| ≤ 0.8) →
      (∀ ch ∈ (processBlock Real.exp Real.rpow s 1 1 10 100 [xs]).2, ∀ y ∈ ch, |y| ≤ 28 / 9) ∧
      (processBlock Real.exp Real.rpow s 1 1 10 100 [xs]).2.map List.length = [xs.length] ∧
      SettledAt 10 1 (processBlock Real.exp Real.rpow s 1 1 10 100 [xs]).1 := by
    intro xs hxs
    rw [processBlock_mono, setTargets_settled 10 s hs]
    have hb := sampleLoop_max_drive_bound s (xs.map (fun l => (l, none))) hs (by
      intro f hf
      obtain ⟨l, hl, rfl⟩ := List.mem_map.mp hf
      exact ⟨hxs l hl, fun y hy => by simp at hy⟩)
    refine ⟨?_, ?_, (sampleLoop_settled Real.exp Real.rpow 10 1 s _ hs).1⟩
    · intro ch hch y hy
      rw [List.mem_singleton] at hch
      subst hch
      obtain ⟨o, ho, rfl⟩ := List.mem_map.mp hy
      exact (hb o ho).1
    · simp [sampleLoop_length]
  refine ⟨?_, fun N => (hmono _ (sineInput_bounded N)).1, hmono, ?_⟩
  · intro hsr he N hN
    obtain ⟨n, rfl⟩ : ∃ n, N = n + 2 := ⟨N - 2, by omega⟩
    obtain ⟨rest, hrest⟩ := sineInput_head n
    obtain ⟨hx0, hx1⟩ := sineInput_second_pos
    obtain ⟨y, hy, hlt⟩ := sampleLoop_max_drive_second s hsr hs he _ hx0 hx1
      (rest.map (fun l => (l, none)))
    refine ⟨0.8 * Real.sin (Real.pi * (20 / 441)), y, ?_, ?_, hlt⟩
    · rw [hrest, List.getElem?_cons_succ, List.getElem?_cons_zero]
    · rw [processBlock_mono, setTargets_settled 10 s hs, hrest]
      simp only [List.map_cons, List.getElem?_cons_zero, Option.some_bind]
      exact hy
  · intro xs ys hxs hys
    rw [processBlock_stereo, setTargets_settled 10 s hs]
    have hb := sampleLoop_max_drive_bound s (List.zipWith (fun l r => (l, some r)) xs ys) hs (by
      intro f hf
      obtain ⟨i, hi, rfl⟩ := List.getElem_of_mem hf
      simp only [List.getElem_zipWith]
      refine ⟨hxs _ (List.getElem_mem _), fun y hy => ?_⟩
      simp only [Option.some.injEq] at hy
      rw [← hy]
      exact hys _ (List.getElem_mem _))
    refine ⟨?_, (sampleLoop_settled Real.exp Real.rpow 10 1 s _ hs).1⟩
    intro ch hch y hy
    simp only [List.mem_cons, List.mem_singleton, List.not_mem_nil, or_false] at hch
    rcases hch with hch | hch
    · subst hch
      obtain ⟨o, ho, rfl⟩ := List.mem_map.mp hy
      exact (hb o ho).1
    · subst hch
      obtain ⟨o, ho, hoy⟩ := List.mem_filterMap.mp hy
      exact (hb o ho).2 y hoy

/-- Witness of C13: the fresh processor that has settled at Drive 10, Mix 100 over
882 samples of silence, then a mono block of three samples of the sine. -/
theorem C13_max_drive_sine_bounded_witness :
    SettledAt 10 1 (settledMaxDrive Real.exp Real.rpow) ∧
    (∃ x y, (sineInput Real.sin Real.pi 0.8 1000 44100 3)[1]? = some x ∧
      ((processBlock Real.exp Real.rpow (settledMaxDrive Real.exp Real.rpow) 1 1 10 100
        [sineInput Real.sin Real.pi 0.8 1000 44100 3]).2[0]?).bind (fun ch => ch[1]?) =
        some y ∧
      x < y) ∧
    (∀ ch ∈ (processBlock Real.exp Real.rpow (settledMaxDrive Real.exp Real.rpow) 1 1 10 100
        [sineInput Real.sin Real.pi 0.8 1000 44100 3]).2, ∀ y ∈ ch, |y| ≤ 28 / 9) :=
  ⟨settledMaxDrive_settled.2.1,
    (C13_max_drive_sine_bounded (settledMaxDrive Real.exp Real.rpow)
      settledMaxDrive_settled.2.1).1 settledMaxDrive_settled.1 settledMaxDrive_settled.2.2.1 3
      (by decide),
    (C13_max_drive_sine_bounded (settledMaxDrive Real.exp Real.rpow)
      settledMaxDrive_settled.2.1).2.1 3⟩

/-! ## Auxiliary lemmas for the impulse scenario -/

/-- Drive 10, 44100 Hz, envelope 0 and the dry sample 1: the envelope is updated
to a value in `(0, 0.2]` (about 0.145), at most the threshold. -/
theorem max_drive_impulse_envelope :
    0 < (wetChannel Real.exp Real.rpow 44100 1 0 10).2 ∧
    (wetChannel Real.exp Real.rpow 44100 1 0 10).2 ≤ 0.2 := by
  have hpow : (6.25 : ℝ) ≤ (2.5 : ℝ) ^ (2.5 : ℝ) := by
    have h := Real.rpow_le_rpow_of_exponent_le (by norm_num : (1 : ℝ) ≤ 2.5)
      (by norm_num : (2 : ℝ) ≤ 2.5)
    rw [Real.rpow_two] at h
    norm_num at h ⊢
    exact h
  have hT : processSaturation Real.rpow ((1 + 10 / 10 * 1.5) * 1) 10 +
      processHarmonics ((1 + 10 / 10 * 1.5) * 1) 10 =
      2.5 / (1 + 3 * (2.5 : ℝ) ^ (2.5 : ℝ)) + 6.40625 := by
    rw [max_drive_shaper_input]
    have h25 : |(2.5 : ℝ) * 1| = 2.5 := by
      rw [abs_of_pos (by norm_num)]
      norm_num
    rw [h25]
    norm_num
  have hsat0 : 0 < (2.5 : ℝ) / (1 + 3 * (2.5 : ℝ) ^ (2.5 : ℝ)) :=
    div_pos (by norm_num) (by linarith)
  have hsat1 : (2.5 : ℝ) / (1 + 3 * (2.5 : ℝ) ^ (2.5 : ℝ)) ≤ 0.13 := by
    rw [div_le_iff₀ (by linarith)]
    linarith
  rw [wetChannel_snd, hT]
  generalize (2.5 : ℝ) / (1 + 3 * (2.5 : ℝ) ^ (2.5 : ℝ)) = S at hsat0 hsat1 ⊢
  obtain ⟨ha0, _⟩ := attackCoeff_bounds 44100 (by norm_num)
  have ha := attackCoeff_le
  have hTpos : 0 < S + 6.40625 := by linarith
  have henv : envelopeFollower Real.exp 44100 (S + 6.40625) 0 =
      attackCoeff Real.exp 44100 * (S + 6.40625) := by
    simp only [envelopeFollower]
    rw [abs_of_pos hTpos, if_pos hTpos]
    ring
  rw [henv]
  exact ⟨mul_pos ha0 hTpos, by nlinarith⟩

/-- Silence with settled parameters and a positive envelope: the envelope decays
but stays positive, so it stays below any bound it was below. -/
theorem sampleLoop_zero_decay (d m : ℝ) (s : VT2BBlackProcessor ℝ) (n : ℕ)
    (hsr : 0 < s.currentSampleRate) (hs : SettledAt d m s) (he : 0 < s.envelopeL) :
    (sampleLoop Real.exp Real.rpow s (List.replicate n (0, none))).1.currentSampleRate =
      s.currentSampleRate ∧
    SettledAt d m (sampleLoop Real.exp Real.rpow s (List.replicate n (0, none))).1 ∧
    0 < (sampleLoop Real.exp Real.rpow s (List.replicate n (0, none))).1.envelopeL ∧
    (sampleLoop Real.exp Real.rpow s (List.replicate n (0, none))).1.envelopeL ≤
      s.envelopeL := by
  induction n generalizing s with
  | zero => exact ⟨rfl, hs, he, le_refl _⟩
  | succ n ih =>
    obtain ⟨hd, _, hs1, hsr1⟩ := processSample_settled Real.exp Real.rpow d m s 0 none hs
    have he1 : (processSample Real.exp Real.rpow s 0 none).1.envelopeL =
        envelopeFollower Real.exp s.currentSampleRate 0 s.envelopeL := by
      rw [processSample_envelopeL, wetChannel_zero_input]
    obtain ⟨hdec0, hdec1⟩ := envelopeFollower_zero_decay s.currentSampleRate s.envelopeL hsr he
    obtain ⟨k1, k2, k3, k4⟩ := ih (processSample Real.exp Real.rpow s 0 none).1
      (by rw [hsr1]; exact hsr) hs1 (by rw [he1]; exact hdec0)
    simp only [List.replicate_succ, sampleLoop]
    refine ⟨k1.trans hsr1, k2, k3, ?_⟩
    rw [he1] at k4
    linarith

/-- The impulse scenario on the sample loop: Drive settled at 10, Mix at 100
percent, 44100 Hz, envelope 0, the dry sample 1 followed by `i` zero samples.
The envelope left after the last sample lies in `(0, 0.2]`, so the reduction
computed from it is 0. -/
theorem sampleLoop_impulse (s : VT2BBlackProcessor ℝ) (hsr : s.currentSampleRate = 44100)
    (hs : SettledAt 10 1 s) (he : s.envelopeL = 0) (i : ℕ) :
    0 < (sampleLoop Real.exp Real.rpow s
      ((1, none) :: List.replicate i (0, none))).1.envelopeL ∧
    (sampleLoop Real.exp Real.rpow s
      ((1, none) :: List.replicate i (0, none))).1.envelopeL ≤ 0.2 ∧
    transientReduction (sampleLoop Real.exp Real.rpow s
      ((1, none) :: List.replicate i (0, none))).1.envelopeL 10 = 0 := by
  obtain ⟨hd, _, hs1, hsr1⟩ := processSample_settled Real.exp Real.rpow 10 1 s 1 none hs
  have he1 : (processSample Real.exp Real.rpow s 1 none).1.envelopeL =
      (wetChannel Real.exp Real.rpow 44100 1 0 10).2 := by
    rw [processSample_envelopeL, hd, hsr, he]
  obtain ⟨h0, h1⟩ := max_drive_impulse_envelope
  obtain ⟨_, _, k3, k4⟩ := sampleLoop_zero_decay 10 1
    (processSample Real.exp Real.rpow s 1 none).1 i
    (by rw [hsr1, hsr]; norm_num) hs1 (by rw [he1]; exact h0)
  rw [he1] at k4
  have hle : (sampleLoop Real.exp Real.rpow s
      ((1, none) :: List.replicate i (0, none))).1.envelopeL ≤ 0.2 := by
    simp only [sampleLoop]
    linarith
  refine ⟨?_, hle, ?_⟩
  · simp only [sampleLoop]
    exact k3
  · rw [transientReduction_eq, if_neg (not_lt.mpr hle)]

/-- The reduction the loop body applies to a left sample is `transientReduction`
of the left envelope it leaves in the state: the envelope is updated first and
the reduction is computed from the updated value, within the same sample. -/
theorem processSample_applies_reduction (p : VT2BBlackProcessor ℝ) (dryL : ℝ)
    (dryR : Option ℝ) :
    (wetChannel Real.exp Real.rpow p.currentSampleRate dryL p.envelopeL
      p.smoothedDrive.getNextValue.1).1 =
      calculateMakeupGain p.smoothedDrive.getNextValue.1 *
        ((processSaturation Real.rpow
            ((1 + p.smoothedDrive.getNextValue.1 / 10 * 1.5) * dryL)
            p.smoothedDrive.getNextValue.1 +
          processHarmonics ((1 + p.smoothedDrive.getNextValue.1 / 10 * 1.5) * dryL)
            p.smoothedDrive.getNextValue.1) *
          (1 - transientReduction (processSample Real.exp Real.rpow p dryL dryR).1.envelopeL
            p.smoothedDrive.getNextValue.1)) := by
  rw [processSample_envelopeL, wetChannel_fst, wetChannel_snd]
  rfl

/-- With Drive settled at `d` and Mix settled at 100 percent, the state a mono
block leaves is the state its sample loop leaves, started from the state given. -/
theorem processBlock_mono_settled_state (d : ℝ) (s : VT2BBlackProcessor ℝ)
    (hs : SettledAt d 1 s) (L : List ℝ) :
    (processBlock Real.exp Real.rpow s 1 1 d 100 [L]).1 =
      (sampleLoop Real.exp Real.rpow s (L.map (fun l => (l, none)))).1 := by
  rw [processBlock_mono, setTargets_settled d s hs]

/-! ## C11: the impulse scenario -/

/-- C11, counterexample: the fresh processor settled at Drive 10, Mix 100 over 882
samples of silence (envelope still 0), 44100 Hz, then the impulse 1 followed by
zero samples.  The reduction computed on the first, the second and the third
sample after the impulse is 0, not nonzero. -/
theorem C11_counterexample :
    transientReduction (processBlock Real.exp Real.rpow (settledMaxDrive Real.exp Real.rpow)
      1 1 10 100 [[1, 0]]).1.envelopeL 10 = 0 ∧
    transientReduction (processBlock Real.exp Real.rpow (settledMaxDrive Real.exp Real.rpow)
      1 1 10 100 [[1, 0, 0]]).1.envelopeL 10 = 0 ∧
    transientReduction (processBlock Real.exp Real.rpow (settledMaxDrive Real.exp Real.rpow)
      1 1 10 100 [[1, 0, 0, 0]]).1.envelopeL 10 = 0 := by
  obtain ⟨hsr, hs, he, _⟩ := settledMaxDrive_settled
  have h1 := (sampleLoop_impulse _ hsr hs he 1).2.2
  have h2 := (sampleLoop_impulse _ hsr hs he 2).2.2
  have h3 := (sampleLoop_impulse _ hsr hs he 3).2.2
  simp only [List.replicate_succ, List.replicate_zero, List.replicate_one] at h1 h2 h3
  rw [processBlock_mono_settled_state 10 _ hs, processBlock_mono_settled_state 10 _ hs,
    processBlock_mono_settled_state 10 _ hs]
  simp only [List.map_cons, List.map_nil]
  exact ⟨h1, h2, h3⟩

/-- C11, amended: at 44100 Hz with Drive settled at 10, Mix settled at 100 percent
and the envelope at 0, feeding one input sample 1 followed by zero samples, the
envelope left after the impulse sample (`i = 0`) and after the `i`-th sample
following it lies in `(0, 0.2]`, so the transient reduction computed on the
impulse sample and on every sample following it is 0: the impulse raises the
envelope to about 0.145, not above the threshold, and it only decays after.
The reduction computed on the last sample of a block is `transientReduction` of
the envelope the block leaves (`processSample_applies_reduction`). -/
theorem C11_impulse_no_reduction (s : VT2BBlackProcessor ℝ)
    (hsr : s.currentSampleRate = 44100) (hs : SettledAt 10 1 s) (he : s.envelopeL = 0)
    (i : ℕ) :
    transientReduction (processBlock Real.exp Real.rpow s 1 1 10 100
      [1 :: List.replicate i 0]).1.envelopeL 10 = 0 ∧
    0 < (processBlock Real.exp Real.rpow s 1 1 10 100
      [1 :: List.replicate i 0]).1.envelopeL ∧
    (processBlock Real.exp Real.rpow s 1 1 10 100
      [1 :: List.replicate i 0]).1.envelopeL ≤ 0.2 := by
  obtain ⟨h0, h1, h2⟩ := sampleLoop_impulse s hsr hs he i
  rw [processBlock_mono_settled_state 10 s hs]
  simp only [List.map_cons, List.map_replicate]
  exact ⟨h2, h0, h1⟩

/-- Witness of C11: the fresh processor settled at Drive 10, Mix 100 over 882
samples of silence, then the impulse and five zero samples. -/
theorem C11_impulse_no_reduction_witness :
    (settledMaxDrive Real.exp Real.rpow).currentSampleRate = 44100 ∧
    SettledAt 10 1 (settledMaxDrive Real.exp Real.rpow) ∧
    (settledMaxDrive Real.exp Real.rpow).envelopeL = 0 ∧
    transientReduction (processBlock Real.exp Real.rpow (settledMaxDrive Real.exp Real.rpow)
      1 1 10 100 [1 :: List.replicate 5 0]).1.envelopeL 10 = 0 :=
  ⟨settledMaxDrive_settled.1, settledMaxDrive_settled.2.1, settledMaxDrive_settled.2.2.1,
    (C11_impulse_no_reduction (settledMaxDrive Real.exp Real.rpow) settledMaxDrive_settled.1
      settledMaxDrive_settled.2.1 settledMaxDrive_settled.2.2.1 5).1⟩

/-! ## Witnesses of C1 and C14 at driven states -/

/-- Witness of C1: the processor settled at Drive 10, Mix 100 (44100 Hz, both
envelopes 0) and a block of one stereo frame `(1/2, 1/4)`.  With `d = 10`,
`m = 1` and `g = 2.5` the frame written is the makeup gain times the transient
shaper run on saturation plus harmonics of the boosted samples `2.5 * (1/2)` and
`2.5 * (1/4)`; the left sample written is strictly larger than the dry 1/2. -/
theorem C1_written_sample_formula_witness :
    [((1 / 2 : ℝ), some (1 / 4 : ℝ))][0]? = some (1 / 2, some (1 / 4)) ∧
    (sampleLoop Real.exp Real.rpow (settledMaxDrive Real.exp Real.rpow)
        [((1 / 2 : ℝ), some (1 / 4 : ℝ))]).2[0]? =
      some
        (1 / 2 * (1 - 1) + 1 * calculateMakeupGain 10 *
            (processTransient Real.exp 44100
              (processSaturation Real.rpow (2.5 * (1 / 2)) 10 +
                processHarmonics (2.5 * (1 / 2)) 10) 0 10).1,
          some (1 / 4 * (1 - 1) + 1 * calculateMakeupGain 10 *
            (processTransient Real.exp 44100
              (processSaturation Real.rpow (2.5 * (1 / 4)) 10 +
                processHarmonics (2.5 * (1 / 4)) 10) 0 10).1)) ∧
    1 / 2 < 1 / 2 * (1 - 1) + 1 * calculateMakeupGain 10 *
      (processTransient Real.exp 44100
        (processSaturation Real.rpow (2.5 * (1 / 2)) 10 +
          processHarmonics (2.5 * (1 / 2)) 10) 0 10).1 := by
  obtain ⟨hsr, hs, heL, heR⟩ := settledMaxDrive_settled
  obtain ⟨hd, hm, _, _⟩ := processSample_settled Real.exp Real.rpow 10 1
    (settledMaxDrive Real.exp Real.rpow) (1 / 2) (some (1 / 4)) hs
  have hg : (1 + (10 : ℝ) / 10 * 1.5) = 2.5 := by norm_num
  have h := C1_written_sample_formula (settledMaxDrive Real.exp Real.rpow)
    [((1 / 2 : ℝ), some (1 / 4 : ℝ))] 0 (1 / 2) (some (1 / 4)) rfl
  simp only [List.take_zero, sampleLoop] at h
  rw [hd, hm, hsr, heL, heR, hg] at h
  refine ⟨rfl, h, ?_⟩
  have hgt := (max_drive_first_sample (1 / 2) (by norm_num) (by norm_num)).1
  rw [wetChannel_fst, hg] at hgt
  linarith

/-- The stereo zero-drive scenario from the 882nd frame on: the smoothed drive is
0, the smoothed mix is 1, the left envelope after its update is at least 0.35 and
the reduction computed from it is 0.08. -/
theorem zeroDriveHalf_settled_facts (j : ℕ) (hj : 881 ≤ j) (p : VT2BBlackProcessor ℝ)
    (hs : ZeroDriveHalf true j p) (hm : MixRamp j p.smoothedMix) :
    p.smoothedDrive.getNextValue.1 = 0 ∧ p.smoothedMix.getNextValue.1 = 1 ∧
    0.35 ≤ (processSample Real.exp Real.rpow p (1 / 2) (some (1 / 2))).1.envelopeL ∧
    transientReduction
      (processSample Real.exp Real.rpow p (1 / 2) (some (1 / 2))).1.envelopeL 0 = 0.08 := by
  have hd : p.smoothedDrive.getNextValue.1 = 0 := by
    rw [getNextValue_at_rest _ hs.2.2.2.2]
    exact hs.2.2.2.1
  have hmix := (getNextValue_mixRamp j _ hm).2 hj
  have hstep := (processSample_zeroDriveHalf true j p hs hm).1.2.1
  simp only [if_true] at hstep
  have hpow := attack_pole_pow_small (j + 1) (by omega)
  have henv : 0.35 ≤ (processSample Real.exp Real.rpow p (1 / 2) (some (1 / 2))).1.envelopeL := by
    rw [hstep]
    linarith only [hpow]
  exact ⟨hd, hmix, henv, transientReduction_zero_drive_full _ henv⟩

/-- Witness of C14: the stereo zero-drive scenario after one block of 1000 samples
of 0.5 (44100 Hz, Drive 0, Mix 100).  The smoothed drive is 0, the smoothed mix
is 1 and the envelope after its update is above 0.2, so the reduction is 0.08
and the sample written is `1/2 * (1 - 1 * 0.08)`, not the dry 1/2. -/
theorem C14_zero_drive_chain_witness :
    (runBlocks Real.exp Real.rpow (prepareToPlay init 44100 512)
      [constantCall true 0 100 (1 / 2) 1000]).smoothedDrive.getNextValue.1 = 0 ∧
    (runBlocks Real.exp Real.rpow (prepareToPlay init 44100 512)
      [constantCall true 0 100 (1 / 2) 1000]).smoothedMix.getNextValue.1 = 1 ∧
    0.2 < (processSample Real.exp Real.rpow
      (runBlocks Real.exp Real.rpow (prepareToPlay init 44100 512)
        [constantCall true 0 100 (1 / 2) 1000]) (1 / 2) (some (1 / 2))).1.envelopeL ∧
    transientReduction (processSample Real.exp Real.rpow
      (runBlocks Real.exp Real.rpow (prepareToPlay init 44100 512)
        [constantCall true 0 100 (1 / 2) 1000]) (1 / 2) (some (1 / 2))).1.envelopeL 0 =
      0.08 ∧
    (processSample Real.exp Real.rpow
      (runBlocks Real.exp Real.rpow (prepareToPlay init 44100 512)
        [constantCall true 0 100 (1 / 2) 1000]) (1 / 2) (some (1 / 2))).2.1 =
      1 / 2 * (1 - 1 * 0.08) ∧
    (processSample Real.exp Real.rpow
      (runBlocks Real.exp Real.rpow (prepareToPlay init 44100 512)
        [constantCall true 0 100 (1 / 2) 1000]) (1 / 2) (some (1 / 2))).2.1 ≠ 1 / 2 := by
  obtain ⟨h0, hm0⟩ := prepareToPlay_zeroDriveHalf true 512
  have hrun := runBlocks_zeroDriveHalf true [1000] 0 _ h0 hm0
  have e : 0 + [1000].sum = 1000 := by norm_num
  rw [e] at hrun
  simp only [List.map_cons, List.map_nil] at hrun
  generalize runBlocks Real.exp Real.rpow (prepareToPlay init 44100 512)
    [constantCall true 0 100 (1 / 2) 1000] = p at hrun ⊢
  obtain ⟨hs, hmb⟩ := hrun
  have hmr : MixRamp 1000 p.smoothedMix := by
    rcases hmb with h | ⟨hj, _⟩
    · exact h
    · exact absurd hj (by norm_num)
  obtain ⟨hd, hm, henv, hred⟩ := zeroDriveHalf_settled_facts 1000 (by norm_num) p hs hmr
  have hout := (C14_zero_drive_chain p (1 / 2) (some (1 / 2)) hd).2.1
  rw [hm, hred] at hout
  refine ⟨hd, hm, by linarith only [henv], hred, hout, ?_⟩
  rw [hout]
  norm_num

end VT2BBlackProcessor

end VT2B
